import Mathlib

/-!
Verification development for mini-leveldb (Go).

Shallow embedding conventions:
* Go strings are byte strings; we model them as `List Nat` (each element a
  byte value) under the name `ByteStr`, compared with Go's bytewise
  lexicographic order.
* Machine integers are modelled as `Nat`/`Int` with explicit `% 2^w`
  truncation where the Go code truncates.
* Fallible Go code returns `Option`/`Except`; a Go runtime panic
  (nil dereference, slice out of range, integer divide by zero) is
  modelled by `Option.none` at the outermost level of the affected
  operation.
* Go `map[string]string` is modelled as an association list with unique
  keys (`mapInsert` overwrites in place), observed through `mapLookup`.
-/

/-- Byte strings: the contents of a Go `string`/`[]byte`. -/
abbrev ByteStr := List Nat

/-- Go bytewise lexicographic `<=` on strings (`key >= firstKey` etc. in db.go). -/
def strLe : ByteStr → ByteStr → Bool
  | [], _ => true
  | _ :: _, [] => false
  | x :: xs, y :: ys => if x < y then true else if y < x then false else strLe xs ys

/-- Go bytewise lexicographic `<` on strings. -/
def strLt (a b : ByteStr) : Bool := strLe a b && !(a == b)

/-- Lookup in a Go map modelled as an association list: first (unique) match. -/
def mapLookup (m : List (ByteStr × ByteStr)) (k : ByteStr) : Option ByteStr :=
  (m.find? (fun p => p.1 == k)).map (·.2)

/-- Go map assignment `m[k] = v`: replace the existing binding in place, or append. -/
def mapInsert (m : List (ByteStr × ByteStr)) (k : ByteStr) (v : ByteStr) :
    List (ByteStr × ByteStr) :=
  match m with
  | [] => [(k, v)]
  | p :: rest => if p.1 == k then (k, v) :: rest else p :: mapInsert rest k v

/-- Conditional insert used by compaction for the lower level: only add the
binding when the key is absent (`if _, exists := allKVs[kv[0]]; !exists`). -/
def mapInsertIfAbsent (m : List (ByteStr × ByteStr)) (k : ByteStr) (v : ByteStr) :
    List (ByteStr × ByteStr) :=
  match mapLookup m k with
  | some _ => m
  | none => m ++ [(k, v)]

/-- Little-endian 4-byte encoding of a 32-bit value (`binary.LittleEndian.PutUint32`). -/
def u32le (n : Nat) : List Nat :=
  [n % 256, n / 256 % 256, n / 65536 % 256, n / 16777216 % 256]

/-- Little-endian decoding of the first four bytes (`binary.LittleEndian.Uint32`).
Callers must pass a list of length at least 4 (Go panics otherwise; the panic
check is made at each call site). -/
def decodeU32 (bs : List Nat) : Nat :=
  bs.getD 0 0 % 256 + 256 * (bs.getD 1 0 % 256) + 65536 * (bs.getD 2 0 % 256)
    + 16777216 * (bs.getD 3 0 % 256)

theorem length_u32le (n : Nat) : (u32le n).length = 4 := rfl

theorem decodeU32_u32le (n : Nat) : decodeU32 (u32le n) = n % 4294967296 := by
  show n % 256 % 256 + 256 * (n / 256 % 256 % 256) + 65536 * (n / 65536 % 256 % 256)
      + 16777216 * (n / 16777216 % 256 % 256) = n % 4294967296
  have hm : ∀ x : Nat, x % 256 % 256 = x % 256 := fun x => Nat.mod_mod_of_dvd x dvd_rfl
  simp only [hm]
  have h1 : (4294967296 : Nat) = 256 * 16777216 := by norm_num
  rw [h1, Nat.mod_mul]
  have h2 : (16777216 : Nat) = 256 * 65536 := by norm_num
  rw [h2, Nat.mod_mul]
  have h3 : (65536 : Nat) = 256 * 256 := by norm_num
  rw [h3, Nat.mod_mul]
  have h6 : n / (256 * 256) = n / 65536 := by norm_num
  have h7 : n / (256 * (256 * 256)) = n / 16777216 := by norm_num
  have h4 : n / 256 / 256 = n / 65536 := by
    rw [Nat.div_div_eq_div_mul]
  have h8 : n / 65536 / 256 = n / 16777216 := by
    rw [Nat.div_div_eq_div_mul]
  rw [h6, h7, h4, h8]
  ring

/-- CRC-32 (IEEE polynomial, reflected form `0xEDB88320`): one input bit. -/
def crc32Bit (c : Nat) : Nat :=
  if c % 2 = 1 then (c / 2) ^^^ 0xEDB88320 else c / 2

/-- CRC-32: absorb one byte (xor into the low byte, then eight bit steps). -/
def crc32Byte (c : Nat) (b : Nat) : Nat :=
  crc32Bit (crc32Bit (crc32Bit (crc32Bit (crc32Bit (crc32Bit (crc32Bit (crc32Bit
    (c ^^^ b % 256))))))))

/-- Go `crc32.ChecksumIEEE`. -/
def crc32 (data : List Nat) : Nat :=
  (data.foldl crc32Byte 0xFFFFFFFF) ^^^ 0xFFFFFFFF

theorem crc32Bit_lt (c : Nat) (h : c < 4294967296) : crc32Bit c < 4294967296 := by
  unfold crc32Bit
  split
  · exact Nat.xor_lt_two_pow (n := 32) (by omega) (by norm_num)
  · omega

theorem crc32Byte_lt (c b : Nat) (h : c < 4294967296) : crc32Byte c b < 4294967296 := by
  unfold crc32Byte
  have h0 : c ^^^ b % 256 < 4294967296 :=
    Nat.xor_lt_two_pow (n := 32) h (by have := Nat.mod_lt b (y := 256) (by norm_num); omega)
  exact crc32Bit_lt _ (crc32Bit_lt _ (crc32Bit_lt _ (crc32Bit_lt _ (crc32Bit_lt _
    (crc32Bit_lt _ (crc32Bit_lt _ (crc32Bit_lt _ h0)))))))

theorem crc32_lt (data : List Nat) : crc32 data < 4294967296 := by
  unfold crc32
  refine Nat.xor_lt_two_pow (n := 32) ?_ (by norm_num)
  induction data using List.reverseRecOn with
  | nil => norm_num [List.foldl]
  | append_singleton xs x ih =>
      rw [List.foldl_append]
      exact crc32Byte_lt _ _ ih

/-! ## WAL (src/unnamed/part_003: `writeBinaryRecord`, `readBinaryRecord`, `Replay`) -/

/-- WAL record payload: `u32 key_len || key_bytes || u32 value_len || value_bytes`. -/
def walPayload (key value : ByteStr) : List Nat :=
  u32le key.length ++ key ++ u32le value.length ++ value

/-- Bytes emitted by `WAL.writeBinaryRecord`: `u32 payload_len || u32 crc32(payload) || payload`. -/
def writeBinaryRecord (key value : ByteStr) : List Nat :=
  u32le (walPayload key value).length ++ u32le (crc32 (walPayload key value)) ++
    walPayload key value

/-- Bytes of a WAL file produced by a sequence of successful `Append`s. -/
def walBytes (records : List (ByteStr × ByteStr)) : List Nat :=
  (records.map (fun r => writeBinaryRecord r.1 r.2)).flatten

/-- Outcome of one `readBinaryRecord` call.
`eof` is Go `io.EOF` (clean stop); `torn` is `io.ErrUnexpectedEOF` (a short
read that consumed the remaining bytes); `badCRC` is the "CRC mismatch"
error with the bytes left after the record; `panicked` is a Go runtime
panic from slicing the payload out of range; `ok` is a parsed record. -/
inductive WalRead where
  | eof : WalRead
  | torn : WalRead
  | badCRC (rest : List Nat) : WalRead
  | panicked : WalRead
  | ok (key value : ByteStr) (rest : List Nat) : WalRead
deriving DecidableEq

/-- Payload parsing step of `readBinaryRecord`: CRC check, then
`keyLen := Uint32(data[0:4])`, `key := data[4 : 4+keyLen]`,
`valueLen := Uint32(data[4+keyLen : 8+keyLen])`,
`value := data[8+keyLen : 8+keyLen+valueLen]`.  Any out-of-range slice is a
Go runtime panic (`panicked`); an out-of-range index cannot fail to panic
even when the Go `uint32` additions wrap, because the data length is below
`2^32` (see the comment in the source model). -/
def walParsePayload (crcStored : Nat) (data rest : List Nat) : WalRead :=
  if crc32 data ≠ crcStored then .badCRC rest
  else if data.length < 4 then .panicked
  else if 4 + decodeU32 (data.take 4) > data.length then .panicked
  else if 8 + decodeU32 (data.take 4) > data.length then .panicked
  else if 8 + decodeU32 (data.take 4)
      + decodeU32 ((data.drop (4 + decodeU32 (data.take 4))).take 4) > data.length then
    .panicked
  else
    .ok ((data.drop 4).take (decodeU32 (data.take 4)))
      ((data.drop (8 + decodeU32 (data.take 4))).take
        (decodeU32 ((data.drop (4 + decodeU32 (data.take 4))).take 4)))
      rest

/-- Go `readBinaryRecord`: read `u32 length`, `u32 crc`, then `length` payload
bytes, check the CRC and parse the payload.  `binary.Read` of a `u32` yields
`io.EOF` on zero available bytes and `io.ErrUnexpectedEOF` on 1–3;
`io.ReadFull` of a non-empty buffer yields `io.EOF` on zero available bytes
and `io.ErrUnexpectedEOF` on a partial read (both consume what is left). -/
def readBinaryRecord (bytes : List Nat) : WalRead :=
  if bytes.length = 0 then .eof
  else if bytes.length < 4 then .torn
  else if (bytes.drop 4).length = 0 then .eof
  else if (bytes.drop 4).length < 4 then .torn
  else if decodeU32 (bytes.take 4) = 0 then
    walParsePayload (decodeU32 ((bytes.drop 4).take 4)) [] ((bytes.drop 4).drop 4)
  else if ((bytes.drop 4).drop 4).length = 0 then .eof
  else if ((bytes.drop 4).drop 4).length < decodeU32 (bytes.take 4) then .torn
  else
    walParsePayload (decodeU32 ((bytes.drop 4).take 4))
      (((bytes.drop 4).drop 4).take (decodeU32 (bytes.take 4)))
      (((bytes.drop 4).drop 4).drop (decodeU32 (bytes.take 4)))

theorem walParsePayload_badCRC_rest {crcStored : Nat} {data rest r : List Nat}
    (h : walParsePayload crcStored data rest = .badCRC r) : r = rest := by
  unfold walParsePayload at h
  split at h
  · injection h with h1
    exact h1.symm
  · repeat' split at h
    all_goals exact WalRead.noConfusion h

theorem walParsePayload_ok_rest {crcStored : Nat} {data rest key value r : List Nat}
    (h : walParsePayload crcStored data rest = .ok key value r) : r = rest := by
  unfold walParsePayload at h
  repeat' split at h
  all_goals first
    | exact WalRead.noConfusion h
    | (injection h with h1 h2 h3
       exact h3.symm)

theorem readBinaryRecord_badCRC_length {bytes rest : List Nat}
    (h : readBinaryRecord bytes = .badCRC rest) : rest.length < bytes.length := by
  unfold readBinaryRecord at h
  repeat' split at h
  all_goals first
    | exact WalRead.noConfusion h
    | (rw [walParsePayload_badCRC_rest h]
       simp only [List.length_drop]
       omega)

theorem readBinaryRecord_ok_length {bytes key value rest : List Nat}
    (h : readBinaryRecord bytes = .ok key value rest) : rest.length < bytes.length := by
  unfold readBinaryRecord at h
  repeat' split at h
  all_goals first
    | exact WalRead.noConfusion h
    | (rw [walParsePayload_ok_rest h]
       simp only [List.length_drop]
       omega)

theorem readBinaryRecord_torn_ne_nil {bytes : List Nat}
    (h : readBinaryRecord bytes = .torn) : bytes ≠ [] := by
  intro hnil
  subst hnil
  simp [readBinaryRecord] at h

/-- Replay loop of Go `Replay`: `io.EOF` stops; any other error from
`readBinaryRecord` is logged and skipped (a torn read has consumed the
remaining bytes, so the next iteration stops); a parsed record is written
into the map (`replayData[key] = value`).  `none` models a Go runtime
panic escaping the loop. -/
def replayLoop (bytes : List Nat) (acc : List (ByteStr × ByteStr)) :
    Option (List (ByteStr × ByteStr)) :=
  match h : readBinaryRecord bytes with
  | .eof => some acc
  | .panicked => none
  | .torn => replayLoop [] acc
  | .badCRC rest => replayLoop rest acc
  | .ok key value rest => replayLoop rest (mapInsert acc key value)
termination_by bytes.length
decreasing_by
  · have := readBinaryRecord_torn_ne_nil h
    cases bytes with
    | nil => simp_all
    | cons a l => simp
  · exact readBinaryRecord_badCRC_length h
  · exact readBinaryRecord_ok_length h

/-- Go `Replay`: `none` as the argument models a missing WAL file
(`os.IsNotExist`), which yields an empty map; otherwise the record loop
runs over the file bytes. -/
def walReplay (file : Option (List Nat)) : Option (List (ByteStr × ByteStr)) :=
  match file with
  | none => some []
  | some bytes => replayLoop bytes []

theorem walPayload_length (k v : ByteStr) :
    (walPayload k v).length = 8 + k.length + v.length := by
  simp [walPayload, u32le]
  omega

theorem walPayload_take4 (k v : ByteStr) :
    (walPayload k v).take 4 = u32le k.length := by
  rw [walPayload, List.append_assoc, List.append_assoc]
  exact List.take_left' (length_u32le _)

theorem walPayload_drop4 (k v : ByteStr) :
    (walPayload k v).drop 4 = k ++ (u32le v.length ++ v) := by
  rw [walPayload, List.append_assoc, List.append_assoc]
  exact List.drop_left' (length_u32le _)

theorem walPayload_drop_key (k v : ByteStr) :
    (walPayload k v).drop (4 + k.length) = u32le v.length ++ v := by
  have h : walPayload k v = (u32le k.length ++ k) ++ (u32le v.length ++ v) := by
    simp [walPayload, List.append_assoc]
  rw [h]
  exact List.drop_left' (by simp [u32le]; omega)

theorem walPayload_drop_to_value (k v : ByteStr) :
    (walPayload k v).drop (8 + k.length) = v := by
  have h : walPayload k v = (u32le k.length ++ k ++ u32le v.length) ++ v := by
    simp [walPayload, List.append_assoc]
  rw [h]
  exact List.drop_left' (by simp [u32le]; omega)

/-- Parsing an intact written payload recovers the record. -/
theorem walParsePayload_roundTrip (k v : ByteStr) (rest : List Nat)
    (hk : k.length < 4294967296) (hv : 8 + k.length + v.length < 4294967296) :
    walParsePayload (crc32 (walPayload k v)) (walPayload k v) rest = .ok k v rest := by
  unfold walParsePayload
  rw [if_neg (by simp)]
  rw [if_neg (by rw [walPayload_length]; omega)]
  rw [walPayload_take4, decodeU32_u32le, Nat.mod_eq_of_lt hk]
  rw [if_neg (by rw [walPayload_length]; omega)]
  rw [if_neg (by rw [walPayload_length]; omega)]
  rw [walPayload_drop_key]
  have htv : (u32le v.length ++ v).take 4 = u32le v.length := List.take_left' (length_u32le _)
  rw [htv, decodeU32_u32le, Nat.mod_eq_of_lt (by omega)]
  rw [if_neg (by rw [walPayload_length]; omega)]
  rw [walPayload_drop4, walPayload_drop_to_value]
  have hkk : (k ++ (u32le v.length ++ v)).take k.length = k := List.take_left' rfl
  rw [hkk, List.take_of_length_le (le_refl v.length)]

/-- Reading at the head of an intact written record succeeds and leaves the
remaining bytes untouched. -/
theorem readBinaryRecord_writeBinaryRecord (k v : ByteStr) (rest : List Nat)
    (hlen : 8 + k.length + v.length < 4294967296) :
    readBinaryRecord (writeBinaryRecord k v ++ rest) = .ok k v rest := by
  have hplen := walPayload_length k v
  have hbytes : writeBinaryRecord k v ++ rest
      = u32le (walPayload k v).length
        ++ (u32le (crc32 (walPayload k v)) ++ (walPayload k v ++ rest)) := by
    simp [writeBinaryRecord, List.append_assoc]
  rw [hbytes]
  have hd4 : (u32le (walPayload k v).length
      ++ (u32le (crc32 (walPayload k v)) ++ (walPayload k v ++ rest))).drop 4
      = u32le (crc32 (walPayload k v)) ++ (walPayload k v ++ rest) :=
    List.drop_left' (length_u32le _)
  have ht4 : (u32le (walPayload k v).length
      ++ (u32le (crc32 (walPayload k v)) ++ (walPayload k v ++ rest))).take 4
      = u32le (walPayload k v).length :=
    List.take_left' (length_u32le _)
  have hd44 : (u32le (crc32 (walPayload k v)) ++ (walPayload k v ++ rest)).drop 4
      = walPayload k v ++ rest := List.drop_left' (length_u32le _)
  have ht44 : (u32le (crc32 (walPayload k v)) ++ (walPayload k v ++ rest)).take 4
      = u32le (crc32 (walPayload k v)) := List.take_left' (length_u32le _)
  unfold readBinaryRecord
  rw [if_neg (by simp [u32le])]
  rw [if_neg (by simp [u32le])]
  rw [hd4]
  rw [if_neg (by simp [u32le])]
  rw [if_neg (by simp [u32le])]
  rw [ht4, decodeU32_u32le, Nat.mod_eq_of_lt (by omega)]
  rw [if_neg (by omega)]
  rw [hd44]
  rw [if_neg (by simp [hplen]; try omega)]
  rw [if_neg (by simp [hplen]; try omega)]
  rw [ht44, decodeU32_u32le, Nat.mod_eq_of_lt (crc32_lt _)]
  rw [List.take_left' rfl, List.drop_left' rfl]
  exact walParsePayload_roundTrip k v rest (by omega) hlen

theorem replayLoop_eof_step {bytes : List Nat} {acc : List (ByteStr × ByteStr)}
    (h : readBinaryRecord bytes = .eof) : replayLoop bytes acc = some acc := by
  rw [replayLoop]
  split
  all_goals simp_all

theorem replayLoop_torn_step {bytes : List Nat} {acc : List (ByteStr × ByteStr)}
    (h : readBinaryRecord bytes = .torn) : replayLoop bytes acc = some acc := by
  rw [replayLoop]
  split
  all_goals simp_all
  exact replayLoop_eof_step rfl

theorem replayLoop_badCRC_step {bytes rest : List Nat} {acc : List (ByteStr × ByteStr)}
    (h : readBinaryRecord bytes = .badCRC rest) :
    replayLoop bytes acc = replayLoop rest acc := by
  rw [replayLoop]
  split
  all_goals simp_all

theorem replayLoop_panicked_step {bytes : List Nat} {acc : List (ByteStr × ByteStr)}
    (h : readBinaryRecord bytes = .panicked) : replayLoop bytes acc = none := by
  rw [replayLoop]
  split
  all_goals simp_all

theorem replayLoop_ok_step {bytes rest : List Nat} {k v : ByteStr}
    {acc : List (ByteStr × ByteStr)} (h : readBinaryRecord bytes = .ok k v rest) :
    replayLoop bytes acc = replayLoop rest (mapInsert acc k v) := by
  rw [replayLoop]
  split
  all_goals simp_all

/-- Spec-side last-writer-wins view of an append sequence: the value of the
last append for the key, if any. -/
def lastAppended (records : List (ByteStr × ByteStr)) (k : ByteStr) : Option ByteStr :=
  (records.reverse.find? (fun r => r.1 == k)).map (·.2)

theorem mapLookup_nil (q : ByteStr) : mapLookup [] q = none := rfl

theorem mapLookup_cons (p : ByteStr × ByteStr) (l : List (ByteStr × ByteStr))
    (q : ByteStr) :
    mapLookup (p :: l) q = if p.1 = q then some p.2 else mapLookup l q := by
  by_cases h : p.1 = q
  · have hb : (p.1 == q) = true := by simp [h]
    simp [mapLookup, List.find?, hb, h]
  · have hb : (p.1 == q) = false := by simp [h]
    simp [mapLookup, List.find?, hb, h]

theorem mapLookup_mapInsert (m : List (ByteStr × ByteStr)) (k v q : ByteStr) :
    mapLookup (mapInsert m k v) q = if q = k then some v else mapLookup m q := by
  induction m with
  | nil =>
      by_cases hq : q = k
      · simp [mapInsert, mapLookup_cons, mapLookup_nil, hq]
      · simp [mapInsert, mapLookup_cons, mapLookup_nil, hq, Ne.symm hq]
  | cons p rest ih =>
      by_cases hp : p.1 = k
      · rw [show mapInsert (p :: rest) k v = (k, v) :: rest by simp [mapInsert, hp]]
        rw [mapLookup_cons, mapLookup_cons]
        by_cases hq : q = k
        · simp [hq]
        · have hkq : ¬(k = q) := Ne.symm hq
          have hpq : ¬(p.1 = q) := hp ▸ hkq
          simp [hq, hkq, hpq]
      · rw [show mapInsert (p :: rest) k v = p :: mapInsert rest k v by simp [mapInsert, hp]]
        rw [mapLookup_cons, mapLookup_cons, ih]
        by_cases hpq : p.1 = q
        · have hqk : ¬(q = k) := fun hh => hp (hpq.trans hh)
          simp [hpq, hqk]
        · simp [hpq]

theorem lastAppended_cons (r : ByteStr × ByteStr) (rs : List (ByteStr × ByteStr))
    (q : ByteStr) :
    lastAppended (r :: rs) q
      = (lastAppended rs q).or (if r.1 = q then some r.2 else none) := by
  unfold lastAppended
  rw [List.reverse_cons, List.find?_append]
  cases hfind : List.find? (fun p => p.1 == q) rs.reverse with
  | some p => simp [hfind]
  | none =>
      by_cases hr : r.1 = q
      · simp [hfind, hr]
      · simp [hfind, hr]

theorem mapLookup_foldl_insert (rs : List (ByteStr × ByteStr))
    (acc : List (ByteStr × ByteStr)) (q : ByteStr) :
    mapLookup (rs.foldl (fun m r => mapInsert m r.1 r.2) acc) q
      = (lastAppended rs q).or (mapLookup acc q) := by
  induction rs generalizing acc with
  | nil => simp [lastAppended]
  | cons r rs ih =>
      rw [List.foldl_cons, ih, lastAppended_cons, mapLookup_mapInsert]
      cases hlast : lastAppended rs q with
      | some p => simp
      | none =>
          by_cases hq : q = r.1
          · simp [hq]
          · have hrq : ¬(r.1 = q) := fun hh => hq (hh.symm)
            simp [hq, hrq]

theorem replayLoop_walBytes (rs : List (ByteStr × ByteStr))
    (acc : List (ByteStr × ByteStr))
    (h : ∀ r ∈ rs, 8 + r.1.length + r.2.length < 4294967296) :
    replayLoop (walBytes rs) acc
      = some (rs.foldl (fun m r => mapInsert m r.1 r.2) acc) := by
  induction rs generalizing acc with
  | nil =>
      rw [show walBytes [] = [] from rfl]
      exact replayLoop_eof_step rfl
  | cons r rs ih =>
      have hbytes : walBytes (r :: rs) = writeBinaryRecord r.1 r.2 ++ walBytes rs := by
        simp [walBytes]
      rw [hbytes,
        replayLoop_ok_step (readBinaryRecord_writeBinaryRecord r.1 r.2 (walBytes rs)
          (h r (List.mem_cons_self r rs))),
        ih (mapInsert acc r.1 r.2) (fun x hx => h x (List.mem_cons_of_mem r hx))]
      rfl

/-- C2: replaying a WAL produced by a sequence of successful `Append`s
yields exactly the last-writer-wins mapping of the appended records:
every appended key maps to the value of its last append and no other key
is present.  The length bound reflects the WAL format limit (lengths are
stored as `u32`). -/
theorem wal_replay_lastWriterWins (rs : List (ByteStr × ByteStr))
    (h : ∀ r ∈ rs, 8 + r.1.length + r.2.length < 4294967296) :
    ∃ m, walReplay (some (walBytes rs)) = some m
      ∧ ∀ q, mapLookup m q = lastAppended rs q := by
  refine ⟨rs.foldl (fun m r => mapInsert m r.1 r.2) [], ?_, ?_⟩
  · exact replayLoop_walBytes rs [] h
  · intro q
    rw [mapLookup_foldl_insert]
    simp [mapLookup]

/-- Witness for C2 at the concrete append sequence
`("a","1"), ("b","2"), ("a","3")` (the spec scenario S3). -/
theorem wal_replay_lastWriterWins_witness :
    ∃ m, walReplay (some (walBytes [([97], [49]), ([98], [50]), ([97], [51])])) = some m
      ∧ ∀ q, mapLookup m q = lastAppended [([97], [49]), ([98], [50]), ([97], [51])] q :=
  wal_replay_lastWriterWins [([97], [49]), ([98], [50]), ([97], [51])] (by decide)

/-- A complete record whose stored CRC disagrees with the CRC-32 of its
payload parses as a CRC mismatch, leaving the following bytes. -/
theorem readBinaryRecord_corruptRecord (c : Nat) (payload rest : List Nat)
    (hc : c < 4294967296) (hne : crc32 payload ≠ c)
    (hp : payload.length < 4294967296) :
    readBinaryRecord (u32le payload.length ++ (u32le c ++ (payload ++ rest)))
      = .badCRC rest := by
  have hd4 : (u32le payload.length ++ (u32le c ++ (payload ++ rest))).drop 4
      = u32le c ++ (payload ++ rest) := List.drop_left' (length_u32le _)
  have ht4 : (u32le payload.length ++ (u32le c ++ (payload ++ rest))).take 4
      = u32le payload.length := List.take_left' (length_u32le _)
  have hd44 : (u32le c ++ (payload ++ rest)).drop 4 = payload ++ rest :=
    List.drop_left' (length_u32le _)
  have ht44 : (u32le c ++ (payload ++ rest)).take 4 = u32le c :=
    List.take_left' (length_u32le _)
  unfold readBinaryRecord
  rw [if_neg (by simp [u32le])]
  rw [if_neg (by simp [u32le])]
  rw [hd4]
  rw [if_neg (by simp [u32le])]
  rw [if_neg (by simp [u32le])]
  rw [ht4, decodeU32_u32le, Nat.mod_eq_of_lt hp]
  by_cases hz : payload.length = 0
  · rw [if_pos hz, hd44, ht44, decodeU32_u32le, Nat.mod_eq_of_lt hc]
    have hpl : payload = [] := List.length_eq_zero.mp hz
    subst hpl
    unfold walParsePayload
    rw [if_pos (by simpa using hne)]
    simp
  · rw [if_neg hz]
    rw [hd44]
    rw [if_neg (by simp only [List.length_append]; omega)]
    rw [if_neg (by simp only [List.length_append]; omega)]
    rw [ht44, decodeU32_u32le, Nat.mod_eq_of_lt hc]
    rw [List.take_left' rfl, List.drop_left' rfl]
    unfold walParsePayload
    rw [if_pos (by simpa using hne)]

/-- A strict prefix of a written record reads as a clean or torn end of
file, never as a record and never as a panic. -/
theorem replayLoop_tornPrefix (k v : ByteStr) (n : Nat)
    (acc : List (ByteStr × ByteStr))
    (hlen : 8 + k.length + v.length < 4294967296)
    (hn : n < (writeBinaryRecord k v).length) :
    replayLoop ((writeBinaryRecord k v).take n) acc = some acc := by
  have hplen := walPayload_length k v
  have hwlen : (writeBinaryRecord k v).length = 8 + (walPayload k v).length := by
    simp only [writeBinaryRecord, List.length_append, length_u32le]
    try omega
  have hread : readBinaryRecord ((writeBinaryRecord k v).take n) = .eof
      ∨ readBinaryRecord ((writeBinaryRecord k v).take n) = .torn := by
    have htn : ((writeBinaryRecord k v).take n).length = n := by
      rw [List.length_take]
      omega
    by_cases h0 : n = 0
    · left
      rw [readBinaryRecord, if_pos (by rw [htn]; exact h0)]
    · by_cases h4 : n < 4
      · right
        rw [readBinaryRecord, if_neg (by omega), if_pos (by rw [htn]; exact h4)]
      · -- n ≥ 4: the length field is complete
        have hbytes : writeBinaryRecord k v
            = u32le (walPayload k v).length
              ++ (u32le (crc32 (walPayload k v)) ++ walPayload k v) := by
          simp [writeBinaryRecord, List.append_assoc]
        have htake4 : ((writeBinaryRecord k v).take n).take 4
            = u32le (walPayload k v).length := by
          rw [List.take_take, show min 4 n = 4 by omega, hbytes]
          exact List.take_left' (length_u32le _)
        have hdrop4 : ((writeBinaryRecord k v).take n).drop 4
            = (u32le (crc32 (walPayload k v)) ++ walPayload k v).take (n - 4) := by
          rw [List.drop_take, hbytes, List.drop_left' (length_u32le _)]
        have hr1len : (((writeBinaryRecord k v).take n).drop 4).length = n - 4 := by
          rw [hdrop4, List.length_take]
          simp only [List.length_append, length_u32le]
          omega
        by_cases h44 : n = 4
        · left
          rw [readBinaryRecord, if_neg (by omega), if_neg (by omega),
            if_pos (by rw [hr1len]; omega)]
        · by_cases h8 : n < 8
          · right
            rw [readBinaryRecord, if_neg (by omega), if_neg (by omega),
              if_neg (by rw [hr1len]; omega), if_pos (by rw [hr1len]; omega)]
          · -- n ≥ 8: the CRC field is complete, the payload is short
            have hlenfield : decodeU32 (((writeBinaryRecord k v).take n).take 4)
                = (walPayload k v).length := by
              rw [htake4, decodeU32_u32le, Nat.mod_eq_of_lt (by omega)]
            have hdrop44 : (((writeBinaryRecord k v).take n).drop 4).drop 4
                = (walPayload k v).take (n - 8) := by
              rw [hdrop4, List.drop_take, List.drop_left' (length_u32le _)]
              have : n - 4 - 4 = n - 8 := by omega
              rw [this]
            have hr2len : ((((writeBinaryRecord k v).take n).drop 4).drop 4).length
                = n - 8 := by
              rw [hdrop44, List.length_take]
              omega
            by_cases h88 : n = 8
            · left
              rw [readBinaryRecord, if_neg (by omega), if_neg (by omega),
                if_neg (by rw [hr1len]; omega), if_neg (by rw [hr1len]; omega),
                if_neg (by rw [hlenfield]; omega),
                if_pos (by rw [hr2len]; omega)]
            · right
              rw [readBinaryRecord, if_neg (by omega), if_neg (by omega),
                if_neg (by rw [hr1len]; omega), if_neg (by rw [hr1len]; omega),
                if_neg (by rw [hlenfield]; omega),
                if_neg (by rw [hr2len]; omega),
                if_pos (by rw [hr2len, hlenfield]; omega)]
  rcases hread with hread | hread
  · exact replayLoop_eof_step hread
  · exact replayLoop_torn_step hread

/-- C7 (amended): WAL `Replay` returns an empty mapping when the file does
not exist; a complete record whose stored CRC disagrees with the CRC-32 of
its payload is skipped and replay continues with the following bytes; a
record cut off by end of file (a strict prefix of a written record at the
tail) makes replay stop without error, keeping what was already replayed. -/
theorem wal_replay_errorTolerance :
    (walReplay none = some [])
    ∧ (∀ (c : Nat) (payload rest : List Nat) (acc : List (ByteStr × ByteStr)),
        c < 4294967296 → crc32 payload ≠ c → payload.length < 4294967296 →
        replayLoop (u32le payload.length ++ (u32le c ++ (payload ++ rest))) acc
          = replayLoop rest acc)
    ∧ (∀ (k v : ByteStr) (n : Nat) (acc : List (ByteStr × ByteStr)),
        8 + k.length + v.length < 4294967296 → n < (writeBinaryRecord k v).length →
        replayLoop ((writeBinaryRecord k v).take n) acc = some acc) := by
  refine ⟨rfl, ?_, ?_⟩
  · intro c payload rest acc hc hne hp
    exact replayLoop_badCRC_step (readBinaryRecord_corruptRecord c payload rest hc hne hp)
  · intro k v n acc hlen hn
    exact replayLoop_tornPrefix k v n acc hlen hn

set_option maxRecDepth 8000 in
/-- Witness for C7: a record for key "a", value "b" with stored CRC 0
(wrong) followed by an intact record is skipped, and a 5-byte torn prefix
of a record stops replay cleanly. -/
theorem wal_replay_errorTolerance_witness :
    (replayLoop (u32le ([1, 0, 0, 0, 97, 1, 0, 0, 0, 98] : List Nat).length
        ++ (u32le 0 ++ ([1, 0, 0, 0, 97, 1, 0, 0, 0, 98] ++ walBytes [([99], [100])]))) []
      = replayLoop (walBytes [([99], [100])]) [])
    ∧ (replayLoop ((writeBinaryRecord [97] [98]).take 5) [] = some []) :=
  ⟨wal_replay_errorTolerance.2.1 0 [1, 0, 0, 0, 97, 1, 0, 0, 0, 98]
      (walBytes [([99], [100])]) [] (by norm_num) (by decide) (by decide),
    wal_replay_errorTolerance.2.2 [97] [98] 5 [] (by norm_num) (by decide)⟩

/-- Counterexample for C7 as stated: eight zero bytes form a complete
record (`length = 0`, stored CRC `0`, and `crc32 [] = 0`, so the CRC check
passes) whose empty payload is too short for the key-length field, and Go
`Replay` crashes with a slice-bounds panic instead of skipping or
stopping. -/
theorem wal_replay_panics_on_zero_record :
    walReplay (some [0, 0, 0, 0, 0, 0, 0, 0]) = none := by
  show replayLoop [0, 0, 0, 0, 0, 0, 0, 0] [] = none
  exact replayLoop_panicked_step (by decide)

/-! ## Bloom filter (src/db/bloom.go) -/

/-- Go `BloomFilter`: a byte bitset with `m` bits and `k` hash functions. -/
structure BloomFilter where
  bitset : List Nat
  m : Nat
  k : Nat
deriving DecidableEq

/-- FNV-64a over a byte list (`hash/fnv`, `New64a` then `Write`s):
`h = (h xor byte) * 1099511628211 mod 2^64`, offset basis
`14695981039346656037`. -/
def fnv64a (data : List Nat) : Nat :=
  data.foldl (fun h b => ((h ^^^ b % 256) * 1099511628211) % 18446744073709551616)
    14695981039346656037

/-- Go `BloomFilter.hash`: FNV-64a of the seed byte followed by the key
bytes (`h.Write([]byte{byte(seed)}); h.Write([]byte(data))`). -/
def bloomHash (data : ByteStr) (seed : Nat) : Nat :=
  fnv64a (seed % 256 :: data)

/-- Read bit `pos` of the bitset: Go `bitset[pos/8] & (1 << (pos % 8))`.
Go panics when `pos/8` is out of range; the in-range check is made at the
call sites, which model the panic. -/
def getBit (bs : List Nat) (pos : Nat) : Bool :=
  bs.getD (pos / 8) 0 &&& (1 <<< (pos % 8)) ≠ 0

/-- Set bit `pos`: Go `bitset[pos/8] |= 1 << (pos % 8)`; `none` models the
index-out-of-range panic. -/
def setBit (bs : List Nat) (pos : Nat) : Option (List Nat) :=
  if pos / 8 < bs.length then
    some (bs.set (pos / 8) (bs.getD (pos / 8) 0 ||| (1 <<< (pos % 8))))
  else none

/-- Loop body of Go `BloomFilter.Add` over the hash indices `i`:
`pos := hash(data, i) % m` (integer divide-by-zero panic when `m = 0`,
modelled as `none`), then set the bit. -/
def bloomAddLoop (m : Nat) (data : ByteStr) (bs : List Nat) :
    List Nat → Option (List Nat)
  | [] => some bs
  | i :: is =>
      if m = 0 then none
      else
        match setBit bs (bloomHash data i % m) with
        | none => none
        | some bs2 => bloomAddLoop m data bs2 is

/-- Go `BloomFilter.Add`. -/
def bloomAdd (bf : BloomFilter) (data : ByteStr) : Option BloomFilter :=
  match bloomAddLoop bf.m data bf.bitset (List.range bf.k) with
  | none => none
  | some bs => some { bf with bitset := bs }

/-- Loop of Go `BloomFilter.MightContains`: returns `false` as soon as one
of the `k` derived bits is unset, `true` when all are set; `none` models
the divide-by-zero/index panics. -/
def bloomMightLoop (m : Nat) (data : ByteStr) (bs : List Nat) :
    List Nat → Option Bool
  | [] => some true
  | i :: is =>
      if m = 0 then none
      else if bloomHash data i % m / 8 < bs.length then
        if getBit bs (bloomHash data i % m) then bloomMightLoop m data bs is
        else some false
      else none

/-- Go `BloomFilter.MightContains`. -/
def mightContains (bf : BloomFilter) (data : ByteStr) : Option Bool :=
  bloomMightLoop bf.m data bf.bitset (List.range bf.k)

/-- A sequence of further `Add`s, each required to succeed. -/
def bloomAddAll (bf : BloomFilter) : List ByteStr → Option BloomFilter
  | [] => some bf
  | d :: ds =>
      match bloomAdd bf d with
      | none => none
      | some bf2 => bloomAddAll bf2 ds

/-- Go `NewBloomFilter(0, p)` for any finite `0 < p < 1`: `optimalM` computes
`uint(math.Ceil(-float64(0) * math.Log(p) / (math.Ln2 * math.Ln2)))`, which
is exactly `0` in IEEE-754 arithmetic (`-0.0` times a finite nonzero value
is a signed zero, division keeps it a signed zero, `Ceil` of a signed zero
is that zero, and the `uint` conversion yields `0`; no rounding occurs).
`optimalK(0, 0)` divides `0.0 / 0.0 = NaN`, and Go's conversion of NaN to
`uint` is implementation-specific (`2^63` on amd64); it is kept as the
parameter `kNaN`.  The bitset has `(0+7)/8 = 0` bytes. -/
def newBloomFilterN0 (kNaN : Nat) : BloomFilter :=
  { bitset := List.replicate ((0 + 7) / 8) 0, m := 0, k := kNaN }

theorem getBit_eq_testBit (bs : List Nat) (pos : Nat) :
    getBit bs pos = (bs.getD (pos / 8) 0).testBit (pos % 8) := by
  unfold getBit
  rw [Nat.one_shiftLeft, Nat.and_two_pow]
  cases h : (bs.getD (pos / 8) 0).testBit (pos % 8) <;> simp [h]

theorem setBit_length {bs bs2 : List Nat} {pos : Nat}
    (h : setBit bs pos = some bs2) : bs2.length = bs.length := by
  unfold setBit at h
  split at h
  · cases h
    exact List.length_set bs _ _
  · cases h

theorem getD_eq_getElem? (l : List Nat) (n : Nat) :
    l.getD n 0 = (l[n]?).getD 0 := by
  simp [List.getD]

theorem setBit_getBit_mono {bs bs2 : List Nat} {pos q : Nat}
    (h : setBit bs pos = some bs2) (hq : getBit bs q = true) :
    getBit bs2 q = true := by
  unfold setBit at h
  split at h
  next hlt =>
    cases h
    rw [getBit_eq_testBit] at hq ⊢
    simp only [getD_eq_getElem?] at hq ⊢
    rw [List.getElem?_set]
    by_cases he : pos / 8 = q / 8
    · rw [if_pos he, if_pos (he ▸ hlt), he]
      simp only [Option.getD_some, Nat.testBit_or]
      simp [hq]
    · rw [if_neg he]
      exact hq
  next => cases h

theorem setBit_getBit_self {bs bs2 : List Nat} {pos : Nat}
    (h : setBit bs pos = some bs2) : getBit bs2 pos = true := by
  unfold setBit at h
  split at h
  next hlt =>
    cases h
    rw [getBit_eq_testBit]
    simp only [getD_eq_getElem?]
    rw [List.getElem?_set, if_pos rfl, if_pos hlt]
    simp only [Option.getD_some, Nat.one_shiftLeft, Nat.testBit_or]
    simp [Nat.testBit_two_pow_self]
  next => cases h

theorem bloomAddLoop_length {m : Nat} {data : ByteStr} {bs bs2 : List Nat}
    {is : List Nat} (h : bloomAddLoop m data bs is = some bs2) :
    bs2.length = bs.length := by
  induction is generalizing bs with
  | nil => cases h; rfl
  | cons i is ih =>
      unfold bloomAddLoop at h
      split at h
      · cases h
      · cases hs : setBit bs (bloomHash data i % m) with
        | none => rw [hs] at h; cases h
        | some bsi =>
            rw [hs] at h
            exact (ih h).trans (setBit_length hs)

theorem bloomAddLoop_mono {m : Nat} {data : ByteStr} {bs bs2 : List Nat}
    {is : List Nat} {q : Nat} (h : bloomAddLoop m data bs is = some bs2)
    (hq : getBit bs q = true) : getBit bs2 q = true := by
  induction is generalizing bs with
  | nil => cases h; exact hq
  | cons i is ih =>
      unfold bloomAddLoop at h
      split at h
      · cases h
      · cases hs : setBit bs (bloomHash data i % m) with
        | none => rw [hs] at h; cases h
        | some bsi =>
            rw [hs] at h
            exact ih h (setBit_getBit_mono hs hq)

theorem bloomAddLoop_sets {m : Nat} {data : ByteStr} {bs bs2 : List Nat}
    {is : List Nat} (h : bloomAddLoop m data bs is = some bs2) :
    ∀ i ∈ is, getBit bs2 (bloomHash data i % m) = true := by
  induction is generalizing bs with
  | nil => intro i hi; cases hi
  | cons j is ih =>
      unfold bloomAddLoop at h
      split at h
      · cases h
      · cases hs : setBit bs (bloomHash data j % m) with
        | none => rw [hs] at h; cases h
        | some bsj =>
            rw [hs] at h
            intro i hi
            rcases List.mem_cons.mp hi with hij | hmem
            · subst hij
              exact bloomAddLoop_mono h (setBit_getBit_self hs)
            · exact ih h i hmem

theorem bloomAddLoop_m_pos {m : Nat} {data : ByteStr} {bs bs2 : List Nat}
    {i : Nat} {is : List Nat} (h : bloomAddLoop m data bs (i :: is) = some bs2) :
    m ≠ 0 := by
  unfold bloomAddLoop at h
  split at h
  · cases h
  · assumption

theorem bloomAdd_fields {bf bf1 : BloomFilter} {key : ByteStr}
    (h : bloomAdd bf key = some bf1) :
    bf1.m = bf.m ∧ bf1.k = bf.k ∧ bf1.bitset.length = bf.bitset.length
      ∧ (∀ q, getBit bf.bitset q = true → getBit bf1.bitset q = true)
      ∧ (∀ i ∈ List.range bf.k, getBit bf1.bitset (bloomHash key i % bf.m) = true) := by
  unfold bloomAdd at h
  cases hl : bloomAddLoop bf.m key bf.bitset (List.range bf.k) with
  | none => rw [hl] at h; cases h
  | some bs =>
      rw [hl] at h
      cases h
      exact ⟨rfl, rfl, bloomAddLoop_length hl, fun q => bloomAddLoop_mono hl,
        bloomAddLoop_sets hl⟩

theorem bloomAddAll_fields {bf bf2 : BloomFilter} {ds : List ByteStr}
    (h : bloomAddAll bf ds = some bf2) :
    bf2.m = bf.m ∧ bf2.k = bf.k ∧ bf2.bitset.length = bf.bitset.length
      ∧ (∀ q, getBit bf.bitset q = true → getBit bf2.bitset q = true) := by
  induction ds generalizing bf with
  | nil => cases h; exact ⟨rfl, rfl, rfl, fun q hq => hq⟩
  | cons d ds ih =>
      unfold bloomAddAll at h
      cases ha : bloomAdd bf d with
      | none => rw [ha] at h; cases h
      | some bfi =>
          rw [ha] at h
          obtain ⟨hm, hk, hlen, hmono, _⟩ := bloomAdd_fields ha
          obtain ⟨hm2, hk2, hlen2, hmono2⟩ := ih h
          exact ⟨hm2.trans hm, hk2.trans hk, hlen2.trans hlen,
            fun q hq => hmono2 q (hmono q hq)⟩

theorem bloomMightLoop_allSet {m : Nat} {data : ByteStr} {bs : List Nat}
    {is : List Nat} (hm : m ≠ 0)
    (hin : ∀ i ∈ is, bloomHash data i % m / 8 < bs.length)
    (hset : ∀ i ∈ is, getBit bs (bloomHash data i % m) = true) :
    bloomMightLoop m data bs is = some true := by
  induction is with
  | nil => rfl
  | cons i is ih =>
      unfold bloomMightLoop
      rw [if_neg hm, if_pos (hin i (List.mem_cons_self i is)),
        if_pos (hset i (List.mem_cons_self i is))]
      exact ih (fun j hj => hin j (List.mem_cons_of_mem i hj))
        (fun j hj => hset j (List.mem_cons_of_mem i hj))

theorem bloomAddLoop_inRange {m : Nat} {data : ByteStr} {bs bs2 : List Nat}
    {is : List Nat} (h : bloomAddLoop m data bs is = some bs2) :
    ∀ i ∈ is, bloomHash data i % m / 8 < bs.length := by
  induction is generalizing bs with
  | nil => intro i hi; cases hi
  | cons j is ih =>
      unfold bloomAddLoop at h
      split at h
      · cases h
      · cases hs : setBit bs (bloomHash data j % m) with
        | none => rw [hs] at h; cases h
        | some bsj =>
            rw [hs] at h
            intro i hi
            rcases List.mem_cons.mp hi with hij | hmem
            · subst hij
              unfold setBit at hs
              split at hs
              · assumption
              · cases hs
            · have := ih h i hmem
              rwa [setBit_length hs] at this

theorem bloomMightLoop_false {m : Nat} {data : ByteStr} {bs : List Nat}
    {is : List Nat} (h : bloomMightLoop m data bs is = some false) :
    ∃ i ∈ is, getBit bs (bloomHash data i % m) = false := by
  induction is with
  | nil => simp [bloomMightLoop] at h
  | cons i is ih =>
      unfold bloomMightLoop at h
      split at h
      · cases h
      · split at h
        · split at h
          next =>
            obtain ⟨j, hj, hb⟩ := ih h
            exact ⟨j, List.mem_cons_of_mem i hj, hb⟩
          next hfalse =>
            exact ⟨i, List.mem_cons_self i is, by simpa using hfalse⟩
        · cases h

/-- C8: the Bloom filter has no false negatives.  After a successful
`Add(key)` followed by any further successful `Add`s, `MightContains(key)`
returns `true`; moreover `Add` sets all `k` bit positions derived from the
key, and `MightContains` returns `false` only when at least one of the `k`
derived positions is unset. -/
theorem bloom_noFalseNegatives (bf bf1 bf2 : BloomFilter) (key : ByteStr)
    (ds : List ByteStr) (h1 : bloomAdd bf key = some bf1)
    (h2 : bloomAddAll bf1 ds = some bf2) :
    mightContains bf2 key = some true
    ∧ (∀ i ∈ List.range bf.k, getBit bf1.bitset (bloomHash key i % bf.m) = true)
    ∧ (∀ (g : BloomFilter) (q : ByteStr), mightContains g q = some false →
        ∃ i ∈ List.range g.k, getBit g.bitset (bloomHash q i % g.m) = false) := by
  obtain ⟨hm1, hk1, hlen1, hmono1, hsets1⟩ := bloomAdd_fields h1
  obtain ⟨hm2, hk2, hlen2, hmono2⟩ := bloomAddAll_fields h2
  refine ⟨?_, hsets1, ?_⟩
  · unfold mightContains
    rw [hk2, hk1, hm2, hm1]
    by_cases hk0 : bf.k = 0
    · rw [hk0]
      rfl
    · have hloop : ∃ bs, bloomAddLoop bf.m key bf.bitset (List.range bf.k) = some bs := by
        unfold bloomAdd at h1
        cases hl : bloomAddLoop bf.m key bf.bitset (List.range bf.k) with
        | none => rw [hl] at h1; cases h1
        | some bs => exact ⟨bs, rfl⟩
      obtain ⟨bs, hl⟩ := hloop
      have hm0 : bf.m ≠ 0 := by
        cases hr : List.range bf.k with
        | nil => exact absurd (List.range_eq_nil.mp hr) hk0
        | cons i is =>
            rw [hr] at hl
            exact bloomAddLoop_m_pos hl
      have hin : ∀ i ∈ List.range bf.k,
          bloomHash key i % bf.m / 8 < bf2.bitset.length := by
        intro i hi
        have := bloomAddLoop_inRange hl i hi
        rw [hlen2, hlen1]
        exact this
      have hset : ∀ i ∈ List.range bf.k,
          getBit bf2.bitset (bloomHash key i % bf.m) = true :=
        fun i hi => hmono2 _ (hsets1 i hi)
      exact bloomMightLoop_allSet hm0 hin hset
  · intro g q hfalse
    exact bloomMightLoop_false hfalse

/-- Witness for C8: the filter with 16 bits and 2 hashes, after adding
key "a" and then key "b", answers `MightContains("a")` with `true`. -/
theorem bloom_noFalseNegatives_witness :
    mightContains ⟨[128, 4], 16, 2⟩ [97] = some true :=
  (bloom_noFalseNegatives ⟨[0, 0], 16, 2⟩ ⟨[128, 4], 16, 2⟩ ⟨[128, 4], 16, 2⟩ [97]
    [[98]] (by decide) (by decide)).1

/-- C4 (code behaviour at the failing input): `NewBloomFilter(0, 0.01)`
yields `m = 0` (not `1`) and an empty bitset, and any `Add` with a nonzero
hash count `k` then takes `hash % 0`, a Go integer-divide-by-zero panic
(modelled as `none`).  The conversion producing `k` is Go's
implementation-specific `uint(NaN)`, `2^63` on amd64. -/
theorem bloom_n0_dividesByZero (kNaN : Nat) (key : ByteStr) (h : kNaN ≠ 0) :
    (newBloomFilterN0 kNaN).m = 0 ∧ (newBloomFilterN0 kNaN).bitset = []
      ∧ bloomAdd (newBloomFilterN0 kNaN) key = none := by
  refine ⟨rfl, rfl, ?_⟩
  unfold bloomAdd
  obtain ⟨k2, rfl⟩ : ∃ k2, kNaN = k2 + 1 := ⟨kNaN - 1, by omega⟩
  rw [show (newBloomFilterN0 (k2 + 1)).k = k2 + 1 from rfl, List.range_succ_eq_map]
  simp [bloomAddLoop, newBloomFilterN0]

/-- Witness for C4 at the amd64 value `k = uint(NaN) = 2^63` and key "a". -/
theorem bloom_n0_dividesByZero_witness :
    (newBloomFilterN0 9223372036854775808).m = 0
      ∧ (newBloomFilterN0 9223372036854775808).bitset = []
      ∧ bloomAdd (newBloomFilterN0 9223372036854775808) [97] = none :=
  bloom_n0_dividesByZero 9223372036854775808 [97] (by decide)

/-! ## SSTable (src/db/sstable.go, revision with Bloom filter) and engine view -/

/-- In-memory index entry: key and byte offset of its data entry. -/
structure IndexEntry where
  key : ByteStr
  offset : Int
deriving DecidableEq

/-- Engine-side view of a loaded SSTable: the in-memory index, the Bloom
filter (`nil` allowed), and the mapped data region.  `mmapData` is
modelled from the spec as a table from data offset to the `(key, value)`
entry written there (the mmap-based sstable.go revision that db.go's
`readKVFromMmap` calls is not in the sources; only stale revisions are). -/
structure SSTable where
  index : List IndexEntry
  filter : Option BloomFilter
  mmapData : List (Int × (ByteStr × ByteStr))
deriving DecidableEq

/-- Outcome of one file-backed probe of a table. -/
inductive Probe where
  | panicked : Probe
  | miss : Probe
  | hit (v : ByteStr) : Probe
deriving DecidableEq

/-- Per-probe I/O environment for `BinarySearch`: whether `os.Open` and
`file.Seek` succeed, and the bytes visible from a given seek offset
(an offset with no bytes reads as empty, so the length-prefixed read
fails, modelling a read error). -/
structure FileIO where
  openOk : Bool
  seekOk : Bool
  contentsAt : Int → List Nat

/-- Result of the codec `readString` (length-prefixed with a signed
`int32` length): `err` is an I/O/EOF error, `panicked` is the Go panic
from `make([]byte, length)` with a negative length. -/
inductive StrRead where
  | err : StrRead
  | panicked : StrRead
  | ok (s : ByteStr) (rest : List Nat) : StrRead
deriving DecidableEq

/-- Codec `readString` (src/unnamed/part_003): read `int32 length` little
endian, then `length` bytes. -/
def readGoString (bs : List Nat) : StrRead :=
  if bs.length < 4 then .err
  else if 2147483648 ≤ decodeU32 (bs.take 4) then .panicked
  else if (bs.drop 4).length < decodeU32 (bs.take 4) then .err
  else .ok ((bs.drop 4).take (decodeU32 (bs.take 4)))
    ((bs.drop 4).drop (decodeU32 (bs.take 4)))

/-- Go `sort.Search` loop: `i, j := 0, n; for i < j { h := (i+j)/2; if
!f(h) { i = h + 1 } else { j = h } }; return i`. -/
def sortSearchLoop (f : Nat → Bool) (i j : Nat) : Nat :=
  if i < j then
    if f ((i + j) / 2) then sortSearchLoop f i ((i + j) / 2)
    else sortSearchLoop f ((i + j) / 2 + 1) j
  else i
termination_by j - i
decreasing_by
  · omega
  · omega

/-- Go `sort.Search(n, f)`. -/
def sortSearch (n : Nat) (f : Nat → Bool) : Nat := sortSearchLoop f 0 n

/-- The `i > 0` part of `BinarySearch` after the Bloom gate: find the first
index entry with `key >= target`, check it matches, then open, seek and
read `(k, v)` at the entry's offset; every I/O error is a miss. -/
def binarySearchIndex (s : SSTable) (fio : FileIO) (key : ByteStr) : Probe :=
  let i := sortSearch s.index.length
    (fun j => strLe key ((s.index.getD j ⟨[], 0⟩).key))
  if i = s.index.length then .miss
  else if (s.index.getD i ⟨[], 0⟩).key ≠ key then .miss
  else if ¬fio.openOk then .miss
  else if ¬fio.seekOk then .miss
  else
    match readGoString (fio.contentsAt ((s.index.getD i ⟨[], 0⟩).offset)) with
    | .panicked => .panicked
    | .err => .miss
    | .ok k rest =>
        if k ≠ key then .miss
        else
          match readGoString rest with
          | .panicked => .panicked
          | .err => .miss
          | .ok v _ => .hit v

/-- Go `SSTable.BinarySearch` (src/db/sstable.go:62-95): Bloom filter
gate, then index binary search and file read. -/
def binarySearch (s : SSTable) (fio : FileIO) (key : ByteStr) : Probe :=
  match s.filter with
  | some f =>
      match mightContains f key with
      | none => .panicked
      | some false => .miss
      | some true => binarySearchIndex s fio key
  | none => binarySearchIndex s fio key

/-- Key-range test for levels 1..6 in `DB.Get`:
`key >= firstKey && key <= lastKey`. -/
def rangeContains (s : SSTable) (key : ByteStr) : Bool :=
  strLe (s.index.getD 0 ⟨[], 0⟩).key key
    && strLe key (s.index.getD (s.index.length - 1) ⟨[], 0⟩).key

/-- Engine state visible to `Get`/`Put`: memtable plus the level lists
(`*SSTable` is nilable, hence `Option`). -/
structure DBState where
  memTable : List (ByteStr × ByteStr)
  levels : List (List (Option SSTable))

/-- Result of `DB.Get`: the only error the source constructs is
"not found". -/
inductive GetResult where
  | panicked : GetResult
  | ok (v : ByteStr) : GetResult
  | errNotFound (key : ByteStr) : GetResult
deriving DecidableEq

/-- L0 scan of `DB.Get`: newest first (the caller passes the level
reversed), skipping nil tables and tables with an empty index; return on
first hit. -/
def getScanL0 (fio : SSTable → FileIO) (key : ByteStr) :
    List (Option SSTable) → Probe
  | [] => .miss
  | none :: rest => getScanL0 fio key rest
  | some sst :: rest =>
      if sst.index.length = 0 then getScanL0 fio key rest
      else
        match binarySearch sst (fio sst) key with
        | .panicked => .panicked
        | .hit v => .hit v
        | .miss => getScanL0 fio key rest

/-- L1..L6 scan of `DB.Get`: skip nil/empty tables; probe the first table
whose `[first_key, last_key]` range contains the key; a miss there stops
the level (`break`). -/
def getScanLn (fio : SSTable → FileIO) (key : ByteStr) :
    List (Option SSTable) → Probe
  | [] => .miss
  | none :: rest => getScanLn fio key rest
  | some sst :: rest =>
      if sst.index.length = 0 then getScanLn fio key rest
      else if rangeContains sst key then
        match binarySearch sst (fio sst) key with
        | .panicked => .panicked
        | .hit v => .hit v
        | .miss => .miss
      else getScanLn fio key rest

/-- The level loop of `DB.Get` (`for levelNum := 0; ...`). -/
def getScanLevels (fio : SSTable → FileIO) (key : ByteStr) :
    Nat → List (List (Option SSTable)) → Probe
  | _, [] => .miss
  | levelNum, lvl :: rest =>
      match (if levelNum = 0 then getScanL0 fio key lvl.reverse
             else getScanLn fio key lvl) with
      | .panicked => .panicked
      | .hit v => .hit v
      | .miss => getScanLevels fio key (levelNum + 1) rest

/-- Go `DB.Get` (src/db/db.go:71-108): memtable, then the level scans,
else the not-found error. -/
def dbGet (db : DBState) (fio : SSTable → FileIO) (key : ByteStr) : GetResult :=
  match mapLookup db.memTable key with
  | some v => .ok v
  | none =>
      match getScanLevels fio key 0 db.levels with
      | .panicked => .panicked
      | .hit v => .ok v
      | .miss => .errNotFound key

/-- The value a probe of one table yields, `none` on a miss (or panic,
which the refinement theorems exclude by hypothesis). -/
def probeValue (s : SSTable) (fio : FileIO) (key : ByteStr) : Option ByteStr :=
  match binarySearch s fio key with
  | .hit v => some v
  | _ => none

def optionToProbe : Option ByteStr → Probe
  | some v => .hit v
  | none => .miss

/-- The non-nil tables of a level list with a non-empty index, in order. -/
def nonEmptyTables (tables : List (Option SSTable)) : List SSTable :=
  (tables.filterMap id).filter (fun s => decide (s.index.length ≠ 0))

/-- Spec-side: the single table of a level whose key range contains the
query key (the first such table, which is unique when the level's ranges
are disjoint), skipping nil and empty tables. -/
def levelCandidate (tables : List (Option SSTable)) (key : ByteStr) :
    Option SSTable :=
  (nonEmptyTables tables).find? (fun s => rangeContains s key)

/-- Spec-side probe order of the claim: L0 newest-first (reverse insertion
order) skipping nil or empty tables, then for each of L1..L6 in order the
single in-range table of that level, if any. -/
def specProbeOrder (levels : List (List (Option SSTable))) (key : ByteStr) :
    List SSTable :=
  match levels with
  | [] => []
  | l0 :: rest =>
      nonEmptyTables l0.reverse
        ++ rest.filterMap (fun lvl => levelCandidate lvl key)

/-- All non-nil tables reachable from the level lists. -/
def allTables (levels : List (List (Option SSTable))) : List SSTable :=
  levels.flatten.filterMap id

theorem probe_seq (oa ob : Option ByteStr) :
    (match optionToProbe oa with
      | .panicked => .panicked
      | .hit v => .hit v
      | .miss => optionToProbe ob) = optionToProbe (oa.or ob) := by
  cases oa <;> simp [optionToProbe, Option.or]

theorem nonEmptyTables_cons_none (rest : List (Option SSTable)) :
    nonEmptyTables (none :: rest) = nonEmptyTables rest := by
  simp [nonEmptyTables]

theorem nonEmptyTables_cons_empty {sst : SSTable} (rest : List (Option SSTable))
    (h : sst.index = []) :
    nonEmptyTables (some sst :: rest) = nonEmptyTables rest := by
  simp [nonEmptyTables, h]

theorem nonEmptyTables_cons_some {sst : SSTable} (rest : List (Option SSTable))
    (h : sst.index ≠ []) :
    nonEmptyTables (some sst :: rest) = sst :: nonEmptyTables rest := by
  simp [nonEmptyTables, h]

theorem getScanL0_spec (fio : SSTable → FileIO) (key : ByteStr)
    (tables : List (Option SSTable))
    (hnp : ∀ s ∈ tables.filterMap id, binarySearch s (fio s) key ≠ .panicked) :
    getScanL0 fio key tables
      = optionToProbe ((nonEmptyTables tables).findSome?
          (fun s => probeValue s (fio s) key)) := by
  induction tables with
  | nil => rfl
  | cons t rest ih =>
      cases t with
      | none =>
          rw [show getScanL0 fio key (none :: rest) = getScanL0 fio key rest from rfl,
            nonEmptyTables_cons_none]
          exact ih (fun s hs => hnp s (by simpa using hs))
      | some sst =>
          have hmem : sst ∈ (some sst :: rest).filterMap id := by simp
          by_cases hemp : sst.index.length = 0
          · have hnil : sst.index = [] := List.length_eq_zero.mp hemp
            rw [show getScanL0 fio key (some sst :: rest) = getScanL0 fio key rest by
              simp [getScanL0, hemp], nonEmptyTables_cons_empty rest hnil]
            exact ih (fun s hs => hnp s (by simp; right; simpa using hs))
          · have hne : sst.index ≠ [] := fun hh => hemp (by simp [hh])
            rw [nonEmptyTables_cons_some rest hne, List.findSome?_cons]
            have hbody : getScanL0 fio key (some sst :: rest)
                = (if sst.index.length = 0 then getScanL0 fio key rest
                   else match binarySearch sst (fio sst) key with
                     | .panicked => .panicked
                     | .hit v => .hit v
                     | .miss => getScanL0 fio key rest) := rfl
            rw [hbody, if_neg hemp]
            cases hb : binarySearch sst (fio sst) key with
            | panicked => exact absurd hb (hnp sst hmem)
            | hit v => simp [probeValue, hb, optionToProbe]
            | miss =>
                rw [show probeValue sst (fio sst) key = none by
                  simp [probeValue, hb]]
                exact ih (fun s hs => hnp s (by simp; right; simpa using hs))

theorem getScanLn_spec (fio : SSTable → FileIO) (key : ByteStr)
    (tables : List (Option SSTable))
    (hnp : ∀ s ∈ tables.filterMap id, binarySearch s (fio s) key ≠ .panicked) :
    getScanLn fio key tables
      = optionToProbe ((levelCandidate tables key).bind
          (fun s => probeValue s (fio s) key)) := by
  induction tables with
  | nil => rfl
  | cons t rest ih =>
      cases t with
      | none =>
          rw [show getScanLn fio key (none :: rest) = getScanLn fio key rest from rfl,
            show levelCandidate (none :: rest) key = levelCandidate rest key by
              unfold levelCandidate; rw [nonEmptyTables_cons_none]]
          exact ih (fun s hs => hnp s (by simpa using hs))
      | some sst =>
          have hmem : sst ∈ (some sst :: rest).filterMap id := by simp
          by_cases hemp : sst.index.length = 0
          · have hnil : sst.index = [] := List.length_eq_zero.mp hemp
            rw [show getScanLn fio key (some sst :: rest) = getScanLn fio key rest by
              simp [getScanLn, hemp],
              show levelCandidate (some sst :: rest) key = levelCandidate rest key by
                unfold levelCandidate; rw [nonEmptyTables_cons_empty rest hnil]]
            exact ih (fun s hs => hnp s (by simp; right; simpa using hs))
          · have hne : sst.index ≠ [] := fun hh => hemp (by simp [hh])
            have hcand : levelCandidate (some sst :: rest) key
                = if rangeContains sst key then some sst
                  else levelCandidate rest key := by
              unfold levelCandidate
              rw [nonEmptyTables_cons_some rest hne]
              by_cases hr : rangeContains sst key
              · simp [List.find?, hr]
              · simp [List.find?, hr]
            have hbody : getScanLn fio key (some sst :: rest)
                = (if sst.index.length = 0 then getScanLn fio key rest
                   else if rangeContains sst key then
                     match binarySearch sst (fio sst) key with
                     | .panicked => .panicked
                     | .hit v => .hit v
                     | .miss => .miss
                   else getScanLn fio key rest) := rfl
            rw [hbody, if_neg hemp, hcand]
            by_cases hr : rangeContains sst key
            · rw [if_pos hr, if_pos hr]
              cases hb : binarySearch sst (fio sst) key with
              | panicked => exact absurd hb (hnp sst hmem)
              | hit v => simp [probeValue, hb, optionToProbe]
              | miss => simp [probeValue, hb, optionToProbe]
            · rw [if_neg hr, if_neg hr]
              exact ih (fun s hs => hnp s (by simp; right; simpa using hs))

theorem getScanLevels_succ_spec (fio : SSTable → FileIO) (key : ByteStr)
    (k : Nat) (lvls : List (List (Option SSTable)))
    (hnp : ∀ s ∈ allTables lvls, binarySearch s (fio s) key ≠ .panicked) :
    getScanLevels fio key (k + 1) lvls
      = optionToProbe ((lvls.filterMap (fun lvl => levelCandidate lvl key)).findSome?
          (fun s => probeValue s (fio s) key)) := by
  induction lvls generalizing k with
  | nil => rfl
  | cons lvl rest ih =>
      have hbody : getScanLevels fio key (k + 1) (lvl :: rest)
          = match (if k + 1 = 0 then getScanL0 fio key lvl.reverse
                   else getScanLn fio key lvl) with
            | .panicked => .panicked
            | .hit v => .hit v
            | .miss => getScanLevels fio key (k + 2) rest := rfl
      rw [hbody, if_neg (by omega)]
      rw [getScanLn_spec fio key lvl
        (fun s hs => hnp s (by simp [allTables]; left; simpa using hs))]
      rw [ih (k + 1)
        (fun s hs => hnp s (by
          simp only [allTables, List.flatten_cons, List.filterMap_append, List.mem_append]
          right
          simpa [allTables] using hs))]
      rw [probe_seq]
      cases hc : levelCandidate lvl key with
      | none => simp [List.filterMap_cons, hc]
      | some s =>
          simp only [List.filterMap_cons, hc, List.findSome?_cons, Option.some_bind]
          cases probeValue s (fio s) key <;> simp [Option.or]

/-- C1: `Get` returns the first hit in this order: the memtable; then the
L0 tables newest-first (reverse insertion order), skipping nil or
empty-index tables; then for each of L1..L6 in order the single table of
the level whose `[first_key, last_key]` range contains the key (a miss
there stops that level and the search moves to the next level); if no
source hits, the not-found error.  The hypothesis excludes probe panics
(possible only through a malformed Bloom filter or file bytes). -/
theorem get_searchOrder (db : DBState) (fio : SSTable → FileIO) (key : ByteStr)
    (hnp : ∀ s ∈ allTables db.levels, binarySearch s (fio s) key ≠ .panicked) :
    dbGet db fio key
      = match mapLookup db.memTable key with
        | some v => .ok v
        | none =>
            match (specProbeOrder db.levels key).findSome?
                (fun s => probeValue s (fio s) key) with
            | some v => .ok v
            | none => .errNotFound key := by
  unfold dbGet
  cases hm : mapLookup db.memTable key with
  | some v => rfl
  | none =>
      cases hl : db.levels with
      | nil => rfl
      | cons l0 rest =>
          rw [hl] at hnp
          have hbody : getScanLevels fio key 0 (l0 :: rest)
              = match (if (0 : Nat) = 0 then getScanL0 fio key l0.reverse
                       else getScanLn fio key l0) with
                | .panicked => .panicked
                | .hit v => .hit v
                | .miss => getScanLevels fio key 1 rest := rfl
          rw [hbody, if_pos rfl]
          rw [getScanL0_spec fio key l0.reverse
            (fun s hs => hnp s (by
              simp only [allTables, List.flatten_cons, List.filterMap_append,
                List.mem_append]
              left
              simpa using hs))]
          rw [getScanLevels_succ_spec fio key 0 rest
            (fun s hs => hnp s (by
              simp only [allTables, List.flatten_cons, List.filterMap_append,
                List.mem_append]
              right
              simpa [allTables] using hs))]
          rw [probe_seq]
          rw [show specProbeOrder (l0 :: rest) key
              = nonEmptyTables l0.reverse
                ++ rest.filterMap (fun lvl => levelCandidate lvl key) from rfl]
          rw [List.findSome?_append]
          cases (nonEmptyTables l0.reverse).findSome?
              (fun s => probeValue s (fio s) key) with
          | some v => rfl
          | none =>
              cases (rest.filterMap (fun lvl => levelCandidate lvl key)).findSome?
                  (fun s => probeValue s (fio s) key) with
              | some v => rfl
              | none => rfl

theorem sortSearchLoop_zero_one (f : Nat → Bool) :
    sortSearchLoop f 0 1 = if f 0 then 0 else 1 := by
  rw [sortSearchLoop]
  rw [if_pos (by norm_num)]
  by_cases h : f 0
  · rw [if_pos h, if_pos h]
    rw [sortSearchLoop]
    norm_num
  · rw [if_neg h, if_neg h]
    rw [sortSearchLoop]
    norm_num

/-- Witness for C1: a database with an empty memtable, one L0 table
holding key "a" and one L1 table holding key "b"; `Get("a")` follows the
probe order and returns the L0 value "b" (bytes `[98]`). -/
theorem get_searchOrder_witness :
    dbGet ⟨[], [[some ⟨[⟨[97], 0⟩], none, []⟩], [some ⟨[⟨[98], 0⟩], none, []⟩]]⟩
      (fun _ => ⟨true, true, fun _ => [1, 0, 0, 0, 97, 1, 0, 0, 0, 98]⟩) [97]
      = .ok [98] := by
  have hbA : binarySearch ⟨[⟨[97], 0⟩], none, []⟩
      ⟨true, true, fun _ => [1, 0, 0, 0, 97, 1, 0, 0, 0, 98]⟩ [97] = .hit [98] := by
    simp only [binarySearch, binarySearchIndex, sortSearch]
    norm_num [readGoString, decodeU32, strLe, sortSearchLoop_zero_one]
  have hbB : binarySearch ⟨[⟨[98], 0⟩], none, []⟩
      ⟨true, true, fun _ => [1, 0, 0, 0, 97, 1, 0, 0, 0, 98]⟩ [97] = .miss := by
    simp only [binarySearch, binarySearchIndex, sortSearch]
    norm_num [readGoString, decodeU32, strLe, sortSearchLoop_zero_one]
  rw [get_searchOrder _ _ _ (by
    intro s hs
    simp only [allTables, List.flatten, List.filterMap, id, List.append_nil] at hs
    simp only [List.mem_cons, List.not_mem_nil, or_false] at hs
    rcases hs with h | h <;> subst h
    · rw [hbA]
      simp
    · rw [hbB]
      simp)]
  rw [show mapLookup [] [97] = none from rfl]
  rw [show specProbeOrder
      [[some ⟨[⟨[97], 0⟩], none, []⟩], [some ⟨[⟨[98], 0⟩], none, []⟩]] [97]
      = [⟨[⟨[97], 0⟩], none, []⟩] from by decide]
  rw [List.findSome?_cons]
  rw [show probeValue ⟨[⟨[97], 0⟩], none, []⟩
      ⟨true, true, fun _ => [1, 0, 0, 0, 97, 1, 0, 0, 0, 98]⟩ [97] = some [98] from by
    simp [probeValue, hbA]]

/-- C10: `Get`'s only failure mode is not-found.  An open failure, a seek
failure, or reads that fail make `BinarySearch` report a miss for that
table (so the search continues with the remaining tables and levels), and
`Get`, short of a runtime panic, returns either a value or the not-found
error for the requested key — never an I/O error; it errs only when the
memtable also missed. -/
theorem get_onlyFailure_notFound :
    (∀ (s : SSTable) (fio : FileIO) (key : ByteStr), fio.openOk = false →
        binarySearchIndex s fio key = .miss)
    ∧ (∀ (s : SSTable) (fio : FileIO) (key : ByteStr), fio.seekOk = false →
        binarySearchIndex s fio key = .miss)
    ∧ (∀ (s : SSTable) (fio : FileIO) (key : ByteStr),
        (∀ off, readGoString (fio.contentsAt off) = .err) →
        binarySearchIndex s fio key = .miss)
    ∧ (∀ (db : DBState) (fio : SSTable → FileIO) (key : ByteStr),
        dbGet db fio key ≠ .panicked →
          (∃ v, dbGet db fio key = .ok v) ∨ dbGet db fio key = .errNotFound key)
    ∧ (∀ (db : DBState) (fio : SSTable → FileIO) (key : ByteStr),
        dbGet db fio key = .errNotFound key → mapLookup db.memTable key = none) := by
  refine ⟨?_, ?_, ?_, ?_, ?_⟩
  · intro s fio key h
    simp [binarySearchIndex, h]
  · intro s fio key h
    simp [binarySearchIndex, h]
  · intro s fio key h
    simp [binarySearchIndex, h]
  · intro db fio key h
    unfold dbGet at h ⊢
    cases hm : mapLookup db.memTable key with
    | some v => exact Or.inl ⟨v, rfl⟩
    | none =>
        cases hg : getScanLevels fio key 0 db.levels with
        | panicked => rw [hm, hg] at h; exact absurd rfl h
        | hit v => exact Or.inl ⟨v, rfl⟩
        | miss => exact Or.inr rfl
  · intro db fio key h
    unfold dbGet at h
    cases hm : mapLookup db.memTable key with
    | some v => rw [hm] at h; cases h
    | none => rfl

/-- Witness for C10: probing a table whose file fails to open is a miss,
and a database whose only table misses yields exactly the not-found
error. -/
theorem get_onlyFailure_notFound_witness :
    binarySearchIndex ⟨[⟨[97], 0⟩], none, []⟩ ⟨false, true, fun _ => []⟩ [97] = .miss
    ∧ mapLookup (⟨[([98], [1])], []⟩ : DBState).memTable [97] = none :=
  ⟨get_onlyFailure_notFound.1 ⟨[⟨[97], 0⟩], none, []⟩ ⟨false, true, fun _ => []⟩ [97] rfl,
    get_onlyFailure_notFound.2.2.2.2 ⟨[([98], [1])], []⟩
      (fun _ => ⟨false, true, fun _ => []⟩) [97] (by
        unfold dbGet
        rw [show mapLookup [([98], [1])] [97] = none from by decide]
        rw [show getScanLevels (fun _ => ⟨false, true, fun _ => []⟩) [97] 0 [] = .miss
          from rfl])⟩

/-! ## Engine Put (src/db/db.go:149-160) -/

/-- Result of `DB.Put`. -/
inductive PutResult where
  | ok : PutResult
  | errEmptyKey (key : ByteStr) : PutResult
  | errWal : PutResult
deriving DecidableEq

/-- Go `DB.Put`: reject the empty key, append to the WAL (outcome given by
the oracle `walAppendOk`), and only then update the memtable.  The second
component is the database state after the call. -/
def dbPut (db : DBState) (walAppendOk : Bool) (key value : ByteStr) :
    PutResult × DBState :=
  if key = [] then (.errEmptyKey key, db)
  else if ¬walAppendOk then (.errWal, db)
  else (.ok, { db with memTable := mapInsert db.memTable key value })

/-- C9: `Put` with an empty key fails and changes nothing; with a
non-empty key and a failing WAL append it returns the error with the
state (memtable included) unchanged; only when the WAL append succeeds is
the memtable updated, mapping the key to the new value and leaving every
other key unchanged. -/
theorem put_semantics (db : DBState) (walOk : Bool) (key value : ByteStr) :
    (key = [] → dbPut db walOk key value = (.errEmptyKey key, db))
    ∧ (key ≠ [] → walOk = false → dbPut db walOk key value = (.errWal, db))
    ∧ (key ≠ [] → walOk = true →
        (dbPut db walOk key value).1 = .ok
        ∧ (dbPut db walOk key value).2.levels = db.levels
        ∧ mapLookup (dbPut db walOk key value).2.memTable key = some value
        ∧ ∀ q, q ≠ key →
            mapLookup (dbPut db walOk key value).2.memTable q
              = mapLookup db.memTable q) := by
  refine ⟨?_, ?_, ?_⟩
  · intro h
    simp [dbPut, h]
  · intro h hw
    simp [dbPut, h, hw]
  · intro h hw
    refine ⟨by simp [dbPut, h, hw], by simp [dbPut, h, hw], ?_, ?_⟩
    · simp [dbPut, h, hw, mapLookup_mapInsert]
    · intro q hq
      simp [dbPut, h, hw, mapLookup_mapInsert, hq]

/-- Witness for C9 at concrete inputs: empty key, failing WAL, and a
successful put overwriting a prior value. -/
theorem put_semantics_witness :
    dbPut ⟨[], []⟩ true [] [1] = (.errEmptyKey [], ⟨[], []⟩)
    ∧ dbPut ⟨[], []⟩ false [97] [1] = (.errWal, ⟨[], []⟩)
    ∧ mapLookup (dbPut ⟨[([97], [1])], []⟩ true [97] [2]).2.memTable [97] = some [2] :=
  ⟨(put_semantics ⟨[], []⟩ true [] [1]).1 rfl,
    (put_semantics ⟨[], []⟩ false [97] [1]).2.1 (by decide) rfl,
    ((put_semantics ⟨[([97], [1])], []⟩ true [97] [2]).2.2 (by decide) rfl).2.2.1⟩

/-! ## Level policies and the compaction trigger (src/db/db.go) -/

/-- Go `LevelPolicy`: file-count cap and byte cap (`int64`; `0` means file
count only). -/
structure LevelPolicy where
  maxFiles : Nat
  maxSize : Int
deriving DecidableEq

/-- The policy table built in `NewDB`. -/
def levelPolicies : List LevelPolicy :=
  [⟨4, 0⟩,
   ⟨10, 10 * 1024 * 1024⟩,
   ⟨10, 100 * 1024 * 1024⟩,
   ⟨10, 1000 * 1024 * 1024⟩,
   ⟨10, 10000 * 1024 * 1024⟩,
   ⟨10, 100000 * 1024 * 1024⟩,
   ⟨10, 1000000 * 1024 * 1024⟩]

/-- Total size summed in `needsCompaction`: each entry is an SSTable's
`Stat().Size()`, `none` when the table is nil, its file handle is nil, or
`Stat` fails (those are skipped by the sum but still counted as files). -/
def levelTotalSize (sizes : List (Option Int)) : Int :=
  sizes.foldl (fun acc s => match s with | some n => acc + n | none => acc) 0

/-- Go `DB.needsCompaction` on one level, given the per-file sizes. -/
def needsCompaction (policy : LevelPolicy) (sizes : List (Option Int)) : Bool :=
  if sizes.length ≥ policy.maxFiles then true
  else if policy.maxSize > 0 then
    if levelTotalSize sizes ≥ policy.maxSize then true else false
  else false

/-- Counterexample for C6 as stated: the L3 byte cap in the code is
`1000 * 1024 * 1024` bytes, which is not 1 GiB. -/
theorem levelPolicies_L3_not_1GiB :
    (levelPolicies.getD 3 ⟨0, 0⟩).maxSize = 1048576000
      ∧ (1048576000 : Int) ≠ 1073741824 := by
  decide

/-- C6 (amended): L0 is capped at 4 files with no byte cap; L1..L6 are
capped at 10 files with byte caps of 10, 100, 1000, 10000, 100000 and
1000000 MiB respectively (decimal multiples of one MiB, not 1 GiB, 10 GiB,
100 GiB, 1 TiB); `needsCompaction` is true exactly when the file count
reaches the file cap, or the byte cap is positive and the summed file
sizes reach it. -/
theorem level_policies_needsCompaction :
    levelPolicies.map (fun p => p.maxFiles) = [4, 10, 10, 10, 10, 10, 10]
    ∧ levelPolicies.map (fun p => p.maxSize)
        = [0, 10485760, 104857600, 1048576000, 10485760000, 104857600000,
           1048576000000]
    ∧ ∀ (p : LevelPolicy) (sizes : List (Option Int)),
        needsCompaction p sizes = true ↔
          (p.maxFiles ≤ sizes.length
            ∨ (0 < p.maxSize ∧ p.maxSize ≤ levelTotalSize sizes)) := by
  refine ⟨by decide, by decide, ?_⟩
  intro p sizes
  unfold needsCompaction
  by_cases h1 : sizes.length ≥ p.maxFiles
  · rw [if_pos h1]
    exact ⟨fun _ => Or.inl h1, fun _ => rfl⟩
  · rw [if_neg h1]
    by_cases h2 : p.maxSize > 0
    · rw [if_pos h2]
      by_cases h3 : levelTotalSize sizes ≥ p.maxSize
      · rw [if_pos h3]
        exact ⟨fun _ => Or.inr ⟨h2, h3⟩, fun _ => rfl⟩
      · rw [if_neg h3]
        refine ⟨fun hfalse => absurd hfalse (by simp), fun hcontra => ?_⟩
        rcases hcontra with hc | ⟨_, hc⟩
        · exact absurd hc h1
        · exact absurd hc h3
    · rw [if_neg h2]
      refine ⟨fun hfalse => absurd hfalse (by simp), fun hcontra => ?_⟩
      rcases hcontra with hc | ⟨hc, _⟩
      · exact absurd hc h1
      · exact absurd hc h2

/-! ## SSTable Load validation (spec §4.4) -/

/-- Little-endian decoding of the first eight bytes as unsigned. -/
def decodeU64 (bs : List Nat) : Nat :=
  decodeU32 (bs.take 4) + 4294967296 * decodeU32 ((bs.drop 4).take 4)

/-- Little-endian `int64`: two's complement of the 8-byte value. -/
def decodeI64 (bs : List Nat) : Int :=
  if decodeU64 bs < 9223372036854775808 then (decodeU64 bs : Int)
  else (decodeU64 bs : Int) - 18446744073709551616

/-- The footer's `index_offset`: first eight of the final sixteen bytes. -/
def sstFooterIndexOffset (file : List Nat) : Int :=
  decodeI64 ((file.drop (file.length - 16)).take 8)

/-- The footer's `filter_offset`: final eight bytes. -/
def sstFooterFilterOffset (file : List Nat) : Int :=
  decodeI64 ((file.drop (file.length - 8)).take 8)

inductive LoadError where
  | tooSmall : LoadError
  | corrupt : LoadError
  | badFilter : LoadError
deriving DecidableEq

/-- Modelled from the spec: the Bloom-filter block parse of `Load`
(length-prefixed bitset, then `m` and `k` as `u64`). -/
def sstParseFilter (bs : List Nat) : Option BloomFilter :=
  match readGoString bs with
  | .ok bits rest =>
      if rest.length < 16 then none
      else some ⟨bits, decodeU64 (rest.take 8), decodeU64 ((rest.drop 8).take 8)⟩
  | _ => none

theorem readGoString_ok_length {bs s rest : List Nat}
    (h : readGoString bs = .ok s rest) : rest.length < bs.length := by
  unfold readGoString at h
  repeat' split at h
  all_goals first
    | exact StrRead.noConfusion h
    | (injection h with h1 h2
       subst h2
       simp only [List.length_drop]
       omega)

/-- Modelled from the spec: the index parse of `Load` over the region from
`index_offset` up to `file_size - 16`, reading `(key, i64 offset)` entries
and stopping cleanly at the first incomplete entry. -/
def sstParseIndex (region : List Nat) : List IndexEntry :=
  match h : readGoString region with
  | .err => []
  | .panicked => []
  | .ok key rest =>
      if rest.length < 8 then []
      else ⟨key, decodeI64 (rest.take 8)⟩ :: sstParseIndex (rest.drop 8)
termination_by region.length
decreasing_by
  have := readGoString_ok_length h
  simp only [List.length_drop]
  omega

/-- Modelled from the spec: `SSTable.Load` of the current (mmap-based)
sstable.go, which is absent from the sources — db.go calls its
`readKVFromMmap`/`file` members and the spec documents its footer
validation.  Open and map the file, require at least 16 bytes, parse the
footer, reject `Corrupt` when an offset is negative, past
`file_size - 16`, or the filter region does not precede the index region,
then parse the Bloom filter and the index entries. -/
def sstLoad (file : List Nat) : Except LoadError (List IndexEntry × BloomFilter) :=
  if file.length < 16 then .error .tooSmall
  else if sstFooterIndexOffset file < 0 ∨ sstFooterFilterOffset file < 0
      ∨ sstFooterIndexOffset file > (file.length : Int) - 16
      ∨ sstFooterFilterOffset file > (file.length : Int) - 16
      ∨ sstFooterFilterOffset file ≥ sstFooterIndexOffset file then .error .corrupt
  else
    match sstParseFilter (file.drop (sstFooterFilterOffset file).toNat) with
    | none => .error .badFilter
    | some bf =>
        .ok (sstParseIndex ((file.drop (sstFooterIndexOffset file).toNat).take
          (file.length - 16 - (sstFooterIndexOffset file).toNat)), bf)

/-- C5: for any file of at least 16 bytes whose footer offsets fail any of
the validation checks — negative `index_offset` or `filter_offset`, either
offset past `file_size - 16`, or `filter_offset ≥ index_offset` — `Load`
rejects the file with the corruption error and never loads it. -/
theorem load_rejects_bad_footer (file : List Nat) (h16 : 16 ≤ file.length)
    (hbad : sstFooterIndexOffset file < 0 ∨ sstFooterFilterOffset file < 0
      ∨ sstFooterIndexOffset file > (file.length : Int) - 16
      ∨ sstFooterFilterOffset file > (file.length : Int) - 16
      ∨ sstFooterFilterOffset file ≥ sstFooterIndexOffset file) :
    sstLoad file = .error .corrupt := by
  unfold sstLoad
  rw [if_neg (by omega), if_pos hbad]

/-- Witness for C5: a 16-byte all-zero file has
`filter_offset = index_offset = 0`, failing `filter_offset < index_offset`,
and is rejected as corrupt. -/
theorem load_rejects_bad_footer_witness :
    sstLoad [0, 0, 0, 0, 0, 0, 0, 0, 0, 0, 0, 0, 0, 0, 0, 0] = .error .corrupt :=
  load_rejects_bad_footer [0, 0, 0, 0, 0, 0, 0, 0, 0, 0, 0, 0, 0, 0, 0, 0]
    (by decide) (by decide)

/-! ## Compaction (src/db/db.go:300-385) -/

/-- Modelled from the spec: `readKVFromMmap` of the current sstable.go
(absent from the sources; db.go's compaction calls it) — read the
`(key, value)` entry at a data offset out of the mapped region. -/
def readKVFromMmap (s : SSTable) (off : Int) : Option (ByteStr × ByteStr) :=
  (s.mmapData.find? (fun p => p.1 == off)).map (·.2)

/-- Go `DB.extractAllKVsFromSSTable`: walk the index, read each entry from
the mmap, skip entries that fail to read. -/
def extractAllKVsFromSSTable (s : SSTable) : List (ByteStr × ByteStr) :=
  s.index.filterMap (fun e => readKVFromMmap s e.offset)

/-- The `(key, value)` pairs of a whole level in table order; `none` when
a table pointer is nil (Go dereferences it and panics). -/
def levelKVs : List (Option SSTable) → Option (List (ByteStr × ByteStr))
  | [] => some []
  | none :: _ => none
  | some s :: rest => (levelKVs rest).map (fun ls => extractAllKVsFromSSTable s ++ ls)

/-- First loop of `compactLevel`: insert every pair of level L in order
(later pairs overwrite). -/
def insertAllKVs (m : List (ByteStr × ByteStr)) (kvs : List (ByteStr × ByteStr)) :
    List (ByteStr × ByteStr) :=
  kvs.foldl (fun acc kv => mapInsert acc kv.1 kv.2) m

/-- Second loop of `compactLevel`: insert pairs of level L+1 only when the
key is absent. -/
def insertAbsentKVs (m : List (ByteStr × ByteStr)) (kvs : List (ByteStr × ByteStr)) :
    List (ByteStr × ByteStr) :=
  kvs.foldl (fun acc kv => mapInsertIfAbsent acc kv.1 kv.2) m

/-- The merged map `allKVs` of `compactLevel`. -/
def compactMergedMap (kvsL kvsL1 : List (ByteStr × ByteStr)) :
    List (ByteStr × ByteStr) :=
  insertAbsentKVs (insertAllKVs [] kvsL) kvsL1

/-- Go `sort.Strings`: ascending lexicographic sort of the collected keys
(modelled with insertion sort, which computes the same sorted list). -/
def sortKeys (ks : List ByteStr) : List ByteStr :=
  List.insertionSort (fun a b => strLe a b = true) ks

/-- `sortedKVs` of `compactLevel`: the merged map read back in ascending
key order (`allKVs[k]`, whose miss default is the empty string). -/
def compactSorted (kvsL kvsL1 : List (ByteStr × ByteStr)) :
    List (ByteStr × ByteStr) :=
  (sortKeys ((compactMergedMap kvsL kvsL1).map (·.1))).map
    (fun k => (k, (mapLookup (compactMergedMap kvsL kvsL1) k).getD []))

theorem mapLookup_append (m1 m2 : List (ByteStr × ByteStr)) (q : ByteStr) :
    mapLookup (m1 ++ m2) q = (mapLookup m1 q).or (mapLookup m2 q) := by
  unfold mapLookup
  rw [List.find?_append]
  cases List.find? (fun p => p.1 == q) m1 with
  | some p => simp
  | none => simp

theorem mapLookup_mapInsertIfAbsent (m : List (ByteStr × ByteStr))
    (k v q : ByteStr) :
    mapLookup (mapInsertIfAbsent m k v) q
      = (mapLookup m q).or (if k = q then some v else none) := by
  unfold mapInsertIfAbsent
  cases hm : mapLookup m k with
  | some x =>
      by_cases hq : k = q
      · subst hq
        rw [hm]
        simp
      · cases hq2 : mapLookup m q <;> simp [hq]
  | none =>
      rw [mapLookup_append]
      congr 1
      by_cases hq : k = q
      · simp [mapLookup_cons, mapLookup_nil, hq]
      · simp [mapLookup_cons, mapLookup_nil, hq]

theorem mapLookup_insertAbsentKVs (kvs : List (ByteStr × ByteStr))
    (m : List (ByteStr × ByteStr)) (q : ByteStr) :
    mapLookup (insertAbsentKVs m kvs) q
      = (mapLookup m q).or (mapLookup kvs q) := by
  induction kvs generalizing m with
  | nil => simp [insertAbsentKVs, mapLookup_nil]
  | cons kv rest ih =>
      rw [show insertAbsentKVs m (kv :: rest)
        = insertAbsentKVs (mapInsertIfAbsent m kv.1 kv.2) rest from rfl]
      rw [ih, mapLookup_mapInsertIfAbsent, mapLookup_cons, Option.or_assoc]
      congr 1
      by_cases hq : kv.1 = q
      · simp [hq]
      · simp [hq]

theorem mapLookup_eq_none_iff (m : List (ByteStr × ByteStr)) (q : ByteStr) :
    mapLookup m q = none ↔ q ∉ m.map (·.1) := by
  unfold mapLookup
  rw [Option.map_eq_none', List.find?_eq_none]
  constructor
  · intro h hq
    obtain ⟨p, hp, hpq⟩ := List.mem_map.mp hq
    have hcontra := h p hp
    simp [hpq] at hcontra
  · intro h p hp
    simp only [beq_iff_eq]
    intro hpq
    exact h (List.mem_map.mpr ⟨p, hp, hpq⟩)

theorem lastAppended_eq_none_iff (kvs : List (ByteStr × ByteStr)) (q : ByteStr) :
    lastAppended kvs q = none ↔ q ∉ kvs.map (·.1) := by
  unfold lastAppended
  rw [Option.map_eq_none', List.find?_eq_none]
  constructor
  · intro h hq
    obtain ⟨p, hp, hpq⟩ := List.mem_map.mp hq
    have hcontra := h p (List.mem_reverse.mpr hp)
    simp [hpq] at hcontra
  · intro h p hp
    simp only [beq_iff_eq]
    intro hpq
    exact h (List.mem_map.mpr ⟨p, List.mem_reverse.mp hp, hpq⟩)

theorem mapLookup_map_self (ks : List ByteStr) (f : ByteStr → ByteStr)
    (q : ByteStr) :
    mapLookup (ks.map (fun k => (k, f k))) q
      = if q ∈ ks then some (f q) else none := by
  induction ks with
  | nil => simp [mapLookup_nil]
  | cons k rest ih =>
      rw [List.map_cons, mapLookup_cons, ih]
      by_cases hq : k = q
      · subst hq
        simp
      · simp [hq, Ne.symm hq]

theorem strLe_total (a b : ByteStr) : strLe a b = true ∨ strLe b a = true := by
  induction a generalizing b with
  | nil => left; rfl
  | cons x xs ih =>
      cases b with
      | nil => right; rfl
      | cons y ys =>
          by_cases hxy : x < y
          · left
            simp [strLe, hxy]
          · by_cases hyx : y < x
            · right
              simp [strLe, hyx]
            · have hxy2 : x = y := by omega
              subst hxy2
              rcases ih ys with h | h
              · left
                simp [strLe, h]
              · right
                simp [strLe, h]

theorem strLe_trans {a b c : ByteStr} (h1 : strLe a b = true)
    (h2 : strLe b c = true) : strLe a c = true := by
  induction a generalizing b c with
  | nil => rfl
  | cons x xs ih =>
      cases b with
      | nil => simp [strLe] at h1
      | cons y ys =>
          cases c with
          | nil => simp [strLe] at h2
          | cons z zs =>
              simp only [strLe] at h1 h2 ⊢
              by_cases hxy : x < y
              · have hxz : x < z := by
                  by_cases hyz : y < z
                  · omega
                  · by_cases hzy : z < y
                    · simp [hyz, hzy] at h2
                    · omega
                simp [hxz]
              · by_cases hyx : y < x
                · simp [hxy, hyx] at h1
                · have hxy2 : x = y := by omega
                  subst hxy2
                  by_cases hyz : x < z
                  · simp [hyz]
                  · by_cases hzy : z < x
                    · simp [hyz, hzy] at h2
                    · have hxz2 : x = z := by omega
                      subst hxz2
                      simp [hxy] at h1 h2 ⊢
                      exact ih h1 h2

instance : IsTotal ByteStr (fun a b => strLe a b = true) := ⟨strLe_total⟩

instance : IsTrans ByteStr (fun a b => strLe a b = true) :=
  ⟨fun _ _ _ => strLe_trans⟩

theorem strLt_iff (a b : ByteStr) : strLt a b = true ↔ (strLe a b = true ∧ a ≠ b) := by
  simp [strLt]

theorem sortKeys_sorted (ks : List ByteStr) :
    List.Pairwise (fun a b => strLe a b = true) (sortKeys ks) :=
  List.sorted_insertionSort _ ks

theorem sortKeys_perm (ks : List ByteStr) : (sortKeys ks).Perm ks :=
  List.perm_insertionSort _ ks

/-- Offsets of the data entries as written by `Write`: entry `i` starts
where entry `i-1` ended (`4 + klen + 4 + vlen` bytes each). -/
def buildDataOffsets (off : Int) :
    List (ByteStr × ByteStr) → List (IndexEntry × (Int × (ByteStr × ByteStr)))
  | [] => []
  | (k, v) :: rest =>
      (⟨k, off⟩, (off, (k, v)))
        :: buildDataOffsets (off + 8 + k.length + v.length) rest

/-- The merged SSTable as written by `Write(sortedKVs)` and re-read by
`Load`: index entries at the real cumulative offsets and the mapped data
region keyed by those offsets.  The Bloom filter built by `Write`
(`NewBloomFilter(len(kvs), 0.01)`) has float-derived geometry that no C3
property depends on; it is not modelled here and recorded as `none`. -/
def mkSSTable (kvs : List (ByteStr × ByteStr)) : SSTable :=
  ⟨(buildDataOffsets 0 kvs).map (·.1), none, (buildDataOffsets 0 kvs).map (·.2)⟩

theorem buildDataOffsets_offset_ge (off : Int) (kvs : List (ByteStr × ByteStr)) :
    ∀ p ∈ buildDataOffsets off kvs, off ≤ p.1.offset ∧ p.1.offset = p.2.1 := by
  induction kvs generalizing off with
  | nil => intro p hp; cases hp
  | cons kv rest ih =>
      obtain ⟨k, v⟩ := kv
      intro p hp
      rcases List.mem_cons.mp hp with hph | hpt
      · subst hph
        exact ⟨le_refl _, rfl⟩
      · have := ih (off + 8 + k.length + v.length) p hpt
        constructor
        · have hpos : (0 : Int) ≤ 8 + k.length + v.length := by positivity
          omega
        · exact this.2

theorem extract_buildData (off : Int) (kvs : List (ByteStr × ByteStr)) :
    ((buildDataOffsets off kvs).map (·.1)).filterMap
      (fun e => ((buildDataOffsets off kvs).map (·.2)).find? (fun p => p.1 == e.offset)
        |>.map (·.2)) = kvs := by
  induction kvs generalizing off with
  | nil => rfl
  | cons kv rest ih =>
      obtain ⟨k, v⟩ := kv
      rw [show buildDataOffsets off ((k, v) :: rest)
        = (⟨k, off⟩, (off, (k, v)))
          :: buildDataOffsets (off + 8 + k.length + v.length) rest from rfl]
      rw [List.map_cons, List.map_cons, List.filterMap_cons]
      have hhead : (((off, (k, v))
          :: (buildDataOffsets (off + 8 + k.length + v.length) rest).map (·.2)).find?
            (fun p => p.1 == (⟨k, off⟩ : IndexEntry).offset)).map (·.2)
          = some (k, v) := by
        simp [List.find?]
      have hgt : ∀ e ∈ (buildDataOffsets (off + 8 + k.length + v.length) rest).map (·.1),
          ¬(off == e.offset) := by
        intro e he
        obtain ⟨p, hp, hpe⟩ := List.mem_map.mp he
        have := (buildDataOffsets_offset_ge _ rest p hp).1
        have hpos : (0 : Int) ≤ 8 + k.length + v.length := by positivity
        simp only [beq_iff_eq]
        intro hoff
        subst hpe
        omega
      have hfix : ∀ e ∈ (buildDataOffsets (off + 8 + k.length + v.length) rest).map (·.1),
          (((off, (k, v))
            :: (buildDataOffsets (off + 8 + k.length + v.length) rest).map (·.2)).find?
              (fun p => p.1 == e.offset)).map (·.2)
          = (((buildDataOffsets (off + 8 + k.length + v.length) rest).map (·.2)).find?
              (fun p => p.1 == e.offset)).map (·.2) := by
        intro e he
        rw [List.find?]
        rw [show ((off, (k, v)).1 == e.offset) = false by
          simpa using fun hh => (hgt e he) (by simpa using hh)]
      rw [hhead, List.filterMap_congr hfix, ih (off + 8 + k.length + v.length)]

theorem extract_mkSSTable (kvs : List (ByteStr × ByteStr)) :
    extractAllKVsFromSSTable (mkSSTable kvs) = kvs := by
  unfold extractAllKVsFromSSTable mkSSTable readKVFromMmap
  exact extract_buildData 0 kvs

theorem mem_keys_mapInsert (m : List (ByteStr × ByteStr)) (k v q : ByteStr) :
    q ∈ (mapInsert m k v).map (·.1) ↔ (q = k ∨ q ∈ m.map (·.1)) := by
  induction m with
  | nil => simp [mapInsert]
  | cons p rest ih =>
      by_cases hp : p.1 = k
      · rw [show mapInsert (p :: rest) k v = (k, v) :: rest by simp [mapInsert, hp]]
        simp [hp]
        try tauto
      · rw [show mapInsert (p :: rest) k v = p :: mapInsert rest k v by
          simp [mapInsert, hp]]
        simp [ih]
        tauto

theorem nodupKeys_mapInsert (m : List (ByteStr × ByteStr)) (k v : ByteStr)
    (h : (m.map (·.1)).Nodup) : ((mapInsert m k v).map (·.1)).Nodup := by
  induction m with
  | nil => simp [mapInsert]
  | cons p rest ih =>
      rw [List.map_cons, List.nodup_cons] at h
      by_cases hp : p.1 = k
      · rw [show mapInsert (p :: rest) k v = (k, v) :: rest by simp [mapInsert, hp]]
        rw [List.map_cons, List.nodup_cons]
        exact ⟨hp ▸ h.1, h.2⟩
      · rw [show mapInsert (p :: rest) k v = p :: mapInsert rest k v by
          simp [mapInsert, hp]]
        rw [List.map_cons, List.nodup_cons]
        refine ⟨?_, ih h.2⟩
        rw [mem_keys_mapInsert]
        rintro (hh | hh)
        · exact hp hh
        · exact h.1 hh

theorem nodupKeys_insertAllKVs (kvs : List (ByteStr × ByteStr))
    (m : List (ByteStr × ByteStr)) (h : (m.map (·.1)).Nodup) :
    ((insertAllKVs m kvs).map (·.1)).Nodup := by
  induction kvs generalizing m with
  | nil => exact h
  | cons kv rest ih =>
      exact ih (mapInsert m kv.1 kv.2) (nodupKeys_mapInsert m kv.1 kv.2 h)

theorem nodupKeys_mapInsertIfAbsent (m : List (ByteStr × ByteStr)) (k v : ByteStr)
    (h : (m.map (·.1)).Nodup) : ((mapInsertIfAbsent m k v).map (·.1)).Nodup := by
  unfold mapInsertIfAbsent
  cases hm : mapLookup m k with
  | some x => exact h
  | none =>
      rw [List.map_append, List.nodup_append]
      refine ⟨h, by simp, ?_⟩
      intro q hq
      simp only [List.map_cons, List.map_nil, List.mem_singleton]
      intro hqk
      exact absurd (hqk ▸ hq) ((mapLookup_eq_none_iff m k).mp hm)

theorem nodupKeys_insertAbsentKVs (kvs : List (ByteStr × ByteStr))
    (m : List (ByteStr × ByteStr)) (h : (m.map (·.1)).Nodup) :
    ((insertAbsentKVs m kvs).map (·.1)).Nodup := by
  induction kvs generalizing m with
  | nil => exact h
  | cons kv rest ih =>
      exact ih (mapInsertIfAbsent m kv.1 kv.2) (nodupKeys_mapInsertIfAbsent m kv.1 kv.2 h)

theorem nodupKeys_compactMergedMap (kvsL kvsL1 : List (ByteStr × ByteStr)) :
    ((compactMergedMap kvsL kvsL1).map (·.1)).Nodup :=
  nodupKeys_insertAbsentKVs kvsL1 _ (nodupKeys_insertAllKVs kvsL [] (by simp))

theorem mapLookup_compactSorted (kvsL kvsL1 : List (ByteStr × ByteStr))
    (q : ByteStr) :
    mapLookup (compactSorted kvsL kvsL1) q
      = mapLookup (compactMergedMap kvsL kvsL1) q := by
  unfold compactSorted
  rw [mapLookup_map_self]
  by_cases hq : q ∈ sortKeys ((compactMergedMap kvsL kvsL1).map (·.1))
  · rw [if_pos hq]
    have hqm : q ∈ (compactMergedMap kvsL kvsL1).map (·.1) :=
      (sortKeys_perm _).mem_iff.mp hq
    cases hl : mapLookup (compactMergedMap kvsL kvsL1) q with
    | none => exact absurd ((mapLookup_eq_none_iff _ _).mp hl) (by simpa using hqm)
    | some v => simp
  · rw [if_neg hq]
    have hqm : q ∉ (compactMergedMap kvsL kvsL1).map (·.1) :=
      fun hm => hq ((sortKeys_perm _).mem_iff.mpr hm)
    exact ((mapLookup_eq_none_iff _ _).mpr hqm).symm

theorem compactSorted_keys_pairwise (kvsL kvsL1 : List (ByteStr × ByteStr)) :
    List.Pairwise (fun a b => strLt a b = true)
      ((compactSorted kvsL kvsL1).map (·.1)) := by
  unfold compactSorted
  rw [List.map_map]
  rw [show ((fun p : ByteStr × ByteStr => p.1)
      ∘ fun k => (k, (mapLookup (compactMergedMap kvsL kvsL1) k).getD []))
      = fun k => k from rfl]
  rw [List.map_id']
  have hs := sortKeys_sorted ((compactMergedMap kvsL kvsL1).map (·.1))
  have hn : (sortKeys ((compactMergedMap kvsL kvsL1).map (·.1))).Nodup :=
    (sortKeys_perm _).nodup_iff.mpr (nodupKeys_compactMergedMap kvsL kvsL1)
  exact (hs.and hn).imp (fun hab => (strLt_iff _ _).mpr ⟨hab.1, hab.2⟩)

/-- Go `DB.compactLevel` on the level lists: collect every pair of L then
of L+1 (L wins, and within L later tables win; a nil table pointer is a Go
panic, hence `Option`), sort the merged map by key, and replace the two
levels by the single merged table at L+1.  Accessing `levels[lv+1]` out of
range is a Go panic. -/
def compactLevel (levels : List (List (Option SSTable))) (lv : Nat) :
    Option (List (List (Option SSTable))) :=
  if lv + 1 < levels.length then
    match levelKVs (levels.getD lv []), levelKVs (levels.getD (lv + 1) []) with
    | some kvsL, some kvsL1 =>
        some ((levels.set lv []).set (lv + 1)
          [some (mkSSTable (compactSorted kvsL kvsL1))])
    | _, _ => none
  else none

/-- C3: after a successful `compact_level(L)` (`L ≤ 5` in the engine; here
any `L` with `L+1` a valid level), level L is empty and level L+1 holds
exactly one SSTable; the pairs written into it are exactly the merged
pre-state pairs of L and L+1, sorted strictly ascending by key, where on a
key conflict an L entry wins over an L+1 entry and within L the
last-written occurrence wins (`lastAppended`); no key of the pre-state L
or L+1 is lost. -/
theorem compactLevel_invariant (levels : List (List (Option SSTable))) (lv : Nat)
    (levels' : List (List (Option SSTable))) (kvsL kvsL1 : List (ByteStr × ByteStr))
    (hL : levelKVs (levels.getD lv []) = some kvsL)
    (hL1 : levelKVs (levels.getD (lv + 1) []) = some kvsL1)
    (hc : compactLevel levels lv = some levels') :
    levels'.getD lv [] = []
    ∧ ∃ t : SSTable, levels'.getD (lv + 1) [] = [some t]
      ∧ List.Pairwise (fun a b => strLt a b = true)
          ((extractAllKVsFromSSTable t).map (·.1))
      ∧ (∀ q, mapLookup (extractAllKVsFromSSTable t) q
          = (lastAppended kvsL q).or (mapLookup kvsL1 q))
      ∧ (∀ q, (mapLookup (extractAllKVsFromSSTable t) q).isSome
          ↔ q ∈ (kvsL ++ kvsL1).map (·.1)) := by
  unfold compactLevel at hc
  split at hc
  case isFalse => cases hc
  case isTrue hlen =>
    rw [hL, hL1] at hc
    injection hc with hc
    subst hc
    have hlv : lv < levels.length := by omega
    constructor
    · rw [List.getD, List.get?_eq_getElem?, List.getElem?_set, if_neg (by omega)]
      rw [List.getElem?_set, if_pos rfl, if_pos hlv]
      rfl
    · refine ⟨mkSSTable (compactSorted kvsL kvsL1), ?_, ?_, ?_, ?_⟩
      · rw [List.getD, List.get?_eq_getElem?, List.getElem?_set, if_pos rfl,
          if_pos (by rw [List.length_set]; omega)]
        rfl
      · rw [extract_mkSSTable]
        exact compactSorted_keys_pairwise kvsL kvsL1
      · intro q
        rw [extract_mkSSTable, mapLookup_compactSorted]
        unfold compactMergedMap
        rw [mapLookup_insertAbsentKVs]
        unfold insertAllKVs
        rw [mapLookup_foldl_insert]
        rw [mapLookup_nil, Option.or_none]
      · intro q
        rw [extract_mkSSTable, mapLookup_compactSorted]
        unfold compactMergedMap
        rw [mapLookup_insertAbsentKVs]
        unfold insertAllKVs
        rw [mapLookup_foldl_insert, mapLookup_nil, Option.or_none]
        rw [List.map_append, List.mem_append]
        constructor
        · intro hsome
          by_cases hla : lastAppended kvsL q = none
          · right
            rw [hla] at hsome
            simp only [Option.none_or, Option.or] at hsome
            by_cases hl1 : mapLookup kvsL1 q = none
            · rw [hl1] at hsome
              simp at hsome
            · cases hl1e : mapLookup kvsL1 q with
              | none => exact absurd hl1e hl1
              | some v =>
                  by_contra hmem
                  exact absurd ((mapLookup_eq_none_iff _ _).mpr hmem) hl1
          · left
            by_contra hmem
            exact absurd ((lastAppended_eq_none_iff _ _).mpr hmem) hla
        · intro hmem
          rcases hmem with hmem | hmem
          · cases hla : lastAppended kvsL q with
            | none => exact absurd ((lastAppended_eq_none_iff _ _).mp hla) (by simpa using hmem)
            | some v => simp
          · cases hl1 : mapLookup kvsL1 q with
            | none => exact absurd ((mapLookup_eq_none_iff _ _).mp hl1) (by simpa using hmem)
            | some v => cases lastAppended kvsL q <;> simp

/-- Witness for C3 (the spec's shadowing scenario S6): L0 holds an older
table mapping "k" to "old-value" `[111]` and a newer one mapping it to
`[110]`; compacting L0 into an empty L1 leaves L0 empty and L1 with one
table whose single pair carries the newer value. -/
theorem compactLevel_invariant_witness :
    ([[], [some (mkSSTable [([107], [110])])]] :
        List (List (Option SSTable))).getD 0 [] = []
    ∧ ∃ t : SSTable,
        ([[], [some (mkSSTable [([107], [110])])]] :
            List (List (Option SSTable))).getD 1 [] = [some t]
        ∧ List.Pairwise (fun a b => strLt a b = true)
            ((extractAllKVsFromSSTable t).map (·.1))
        ∧ (∀ q, mapLookup (extractAllKVsFromSSTable t) q
            = (lastAppended [([107], [111]), ([107], [110])] q).or (mapLookup [] q))
        ∧ (∀ q, (mapLookup (extractAllKVsFromSSTable t) q).isSome
            ↔ q ∈ ((([([107], [111]), ([107], [110])] :
                List (ByteStr × ByteStr)) ++ []).map
                  (fun p : ByteStr × ByteStr => p.1))) :=
  compactLevel_invariant
    [[some ⟨[⟨[107], 0⟩], none, [(0, ([107], [111]))]⟩,
      some ⟨[⟨[107], 0⟩], none, [(0, ([107], [110]))]⟩], []] 0
    [[], [some (mkSSTable [([107], [110])])]]
    [([107], [111]), ([107], [110])] []
    (by decide) (by decide) (by decide)
